import Mathlib

/-!
Verification development for two core components of the lighthouse repository:

* the epoch observation cache, from
  `beacon_node/beacon_chain/src/observed_attesters.rs`, and
* the network behaviour coordinator, from
  `beacon_node/eth2-libp2p/src/behaviour.rs`.

The embedding is shallow: Rust structs become Lean structures, interior
mutability (the `RwLock`-guarded fields) becomes explicit state passing, and
fallible methods return `Except` together with the post-state (so that
mutations performed before an error are kept, exactly as in the source).
Lighthouse `Epoch` values are `u64` with saturating arithmetic; they are
modelled as `Nat` (Nat subtraction is saturating, and no property stated here
approaches the `2^64` boundary of saturating addition).
-/

/-! ## Epoch observation cache (observed_attesters.rs) -/

deriving instance DecidableEq for Except

/-- Errors of the observation cache (the `Error` enum in observed_attesters.rs). -/
inductive ObsError where
  | epochTooLow (epoch : Nat) (lowestPermissibleEpoch : Nat)
  | invalidBitfieldIndex (index : Nat)
  | reachedMaxObservationsPerSlot (count : Nat)
  | validatorIndexTooHigh (index : Nat)
deriving DecidableEq

/-- One retained epoch of observations (`EpochBitfield`). `bitfield` models the
growable `BitVec`: bit `i` set means validator index `i` has been observed
attesting in `epoch`. -/
structure EpochBitfield where
  bitfield : List Bool
  epoch : Nat
deriving DecidableEq

/-- `EpochBitfield::new`. `BitVec::with_capacity` only preallocates storage:
the new bitfield has length zero, so the capacity argument (clamped to the
validator registry limit in the source) never affects the observable contents. -/
def EpochBitfield.new (epoch : Nat) (_initialCapacity : Nat) : EpochBitfield :=
  { bitfield := [], epoch := epoch }

/-- `EpochBitfield::observe_attesting_validator`. `limit` is
`E::ValidatorRegistryLimit::to_usize()`. The source rejects only indices
strictly greater than the limit; `get_mut` succeeds exactly when the index is
in bounds, and otherwise the bitfield is resized to `validator_index + 1`
(new positions default to `false`) before the bit is set. -/
def EpochBitfield.observeAttestingValidator (limit : Nat) (b : EpochBitfield)
    (validatorIndex : Nat) : Except ObsError (Bool × EpochBitfield) :=
  if limit < validatorIndex then
    .error (.validatorIndexTooHigh validatorIndex)
  else if h : validatorIndex < b.bitfield.length then
    if b.bitfield[validatorIndex] then
      .ok (true, b)
    else
      .ok (false, { b with bitfield := b.bitfield.set validatorIndex true })
  else
    let grown := b.bitfield ++ List.replicate (validatorIndex + 1 - b.bitfield.length) false
    .ok (false, { b with bitfield := grown.set validatorIndex true })

/-- `EpochBitfield::has_attested`: an out-of-range bit reads as `false`. -/
def EpochBitfield.hasAttested (limit : Nat) (b : EpochBitfield)
    (validatorIndex : Nat) : Except ObsError Bool :=
  if limit < validatorIndex then
    .error (.validatorIndexTooHigh validatorIndex)
  else
    .ok (b.bitfield.getD validatorIndex false)

/-- `EpochBitfield::len`. -/
def EpochBitfield.len (b : EpochBitfield) : Nat := b.bitfield.length

/-- The cache (`ObservedAttesters`). The two `RwLock`ed fields become plain
fields; every operation returns its post-state. -/
structure ObservedAttesters where
  lowestPermissibleEpoch : Nat
  bitfields : List EpochBitfield
deriving DecidableEq

/-- `ObservedAttesters::default`. -/
def ObservedAttesters.default : ObservedAttesters :=
  { lowestPermissibleEpoch := 0, bitfields := [] }

/-- `ObservedAttesters::max_capacity`: the current and the previous epoch. -/
def ObservedAttesters.maxCapacity : Nat := 2

/-- `ObservedAttesters::prune`: recompute the floor with saturating subtraction
and drop every bitfield below it. -/
def ObservedAttesters.prune (s : ObservedAttesters) (currentEpoch : Nat) :
    ObservedAttesters :=
  let lowest := currentEpoch - (ObservedAttesters.maxCapacity - 1)
  { lowestPermissibleEpoch := lowest,
    bitfields := s.bitfields.filter fun b => decide (lowest ≤ b.epoch) }

/-- Position of the first retained bitfield with the given epoch
(`bitfields.iter().position(|b| b.epoch == epoch)`). -/
def findEpochIdx (epoch : Nat) : List EpochBitfield → Option Nat
  | [] => none
  | b :: rest =>
      if b.epoch = epoch then some 0 else (findEpochIdx epoch rest).map (· + 1)

/-- Accumulator form of the index of the first minimal-epoch bitfield. -/
def minEpochIdxAux : List EpochBitfield → Nat → Nat → Nat → Nat
  | [], _, bestIdx, _ => bestIdx
  | b :: rest, i, bestIdx, bestEpoch =>
      if b.epoch < bestEpoch then minEpochIdxAux rest (i + 1) i b.epoch
      else minEpochIdxAux rest (i + 1) bestIdx bestEpoch

/-- Index of the first bitfield with minimal epoch
(`Iterator::min_by_key` returns the first of several equally-minimal elements).
The source unwraps via `.expect(..)`, justified by a preceding nonemptiness
check; on `[]` (unreachable at the call site) this total model returns 0. -/
def minEpochIdx : List EpochBitfield → Nat
  | [] => 0
  | b :: rest => minEpochIdxAux rest 1 0 b.epoch

/-- The capacity heuristic of `get_bitfield_index`: the mean length of the
bitfields of strictly earlier epochs, 128 when there is none
(`sum.checked_div(count).unwrap_or(128)`). The value never affects observable
contents (see `EpochBitfield.new`). -/
def epochInitialCapacity (bitfields : List EpochBitfield) (epoch : Nat) : Nat :=
  let lens := (bitfields.filter fun b => decide (b.epoch < epoch)).map EpochBitfield.len
  if lens.length = 0 then 128 else (lens.foldl (· + ·) 0) / lens.length

/-- The bucket-search step of `get_bitfield_index`, applied after the epoch
check and after the conditional prune (on the `bitfields` variable the source
holds under the write lock): reuse an exact-epoch bucket, else push a fresh
bucket while below capacity, else evict the minimal-epoch bucket in place. -/
def ObservedAttesters.selectBitfieldIndex (s : ObservedAttesters) (epoch : Nat) :
    Except ObsError Nat × ObservedAttesters :=
  match findEpochIdx epoch s.bitfields with
  | some index => (.ok index, s)
  | none =>
      if s.bitfields.length < ObservedAttesters.maxCapacity ∨ s.bitfields = [] then
        (.ok s.bitfields.length,
         { s with bitfields :=
             s.bitfields ++ [EpochBitfield.new epoch (epochInitialCapacity s.bitfields epoch)] })
      else
        let fresh := EpochBitfield.new epoch (epochInitialCapacity s.bitfields epoch)
        (.ok (minEpochIdx s.bitfields),
         { s with bitfields := s.bitfields.set (minEpochIdx s.bitfields) fresh })

/-- `ObservedAttesters::get_bitfield_index`. The result and the post-state are
returned together: the pruning and the bucket allocation performed under the
write lock persist even when the caller later fails. -/
def ObservedAttesters.getBitfieldIndex (s : ObservedAttesters) (epoch : Nat) :
    Except ObsError Nat × ObservedAttesters :=
  if epoch < s.lowestPermissibleEpoch then
    (.error (.epochTooLow epoch s.lowestPermissibleEpoch), s)
  else if s.lowestPermissibleEpoch + ObservedAttesters.maxCapacity < epoch + 1 then
    (s.prune epoch).selectBitfieldIndex epoch
  else
    s.selectBitfieldIndex epoch

/-- `ObservedAttesters::observe_attesting_validator`. The attestation argument
of the source contributes only `a.data.target.epoch`, passed here directly. -/
def ObservedAttesters.observeAttestingValidator (s : ObservedAttesters)
    (limit epoch validatorIndex : Nat) : Except ObsError Bool × ObservedAttesters :=
  match s.getBitfieldIndex epoch with
  | (.error e, s1) => (.error e, s1)
  | (.ok index, s1) =>
      match s1.bitfields[index]? with
      | none => (.error (.invalidBitfieldIndex index), s1)
      | some bf =>
          match EpochBitfield.observeAttestingValidator limit bf validatorIndex with
          | .error e => (.error e, s1)
          | .ok (result, bf2) =>
              (.ok result, { s1 with bitfields := s1.bitfields.set index bf2 })

/-- `ObservedAttesters::has_attested`. Note that it shares the
`get_bitfield_index` bucket-selection step with `observe_attesting_validator`,
including that step's mutations. -/
def ObservedAttesters.hasAttested (s : ObservedAttesters)
    (limit epoch validatorIndex : Nat) : Except ObsError Bool × ObservedAttesters :=
  match s.getBitfieldIndex epoch with
  | (.error e, s1) => (.error e, s1)
  | (.ok index, s1) =>
      match s1.bitfields[index]? with
      | none => (.error (.invalidBitfieldIndex index), s1)
      | some bf => (EpochBitfield.hasAttested limit bf validatorIndex, s1)

/-- Recognizes the `EpochTooLow` outcome. -/
def isEpochTooLowResult : Except ObsError Bool → Bool
  | .error (.epochTooLow _ _) => true
  | _ => false

/-- Whether the observation bit for `(epoch, validatorIndex)` is currently
retained: the bucket that bucket selection would reuse (the first retained
bitfield with this epoch) exists and has the bit set. -/
def ObservedAttesters.bitSetAt (s : ObservedAttesters)
    (epoch validatorIndex : Nat) : Bool :=
  match findEpochIdx epoch s.bitfields with
  | none => false
  | some i =>
      match s.bitfields[i]? with
      | none => false
      | some bf => bf.bitfield.getD validatorIndex false

/-- One call against the cache, for stating lifetime (trace) properties. -/
inductive CacheOp where
  | observe (epoch validatorIndex : Nat)
  | query (epoch validatorIndex : Nat)
  | pruneAt (currentEpoch : Nat)
deriving DecidableEq

/-- Apply one call, keeping only the post-state. -/
def CacheOp.apply (limit : Nat) (s : ObservedAttesters) : CacheOp → ObservedAttesters
  | .observe e v => (s.observeAttestingValidator limit e v).2
  | .query e v => (s.hasAttested limit e v).2
  | .pruneAt e => s.prune e

/-- Run a sequence of calls. -/
def runOps (limit : Nat) (s : ObservedAttesters) : List CacheOp → ObservedAttesters
  | [] => s
  | op :: rest => runOps limit (CacheOp.apply limit s op) rest

/-- Checks that every `pruneAt e` in the trace is issued with an epoch whose
induced floor `e - 1` does not fall below the floor current at that point
(this is how the beacon chain drives `prune`: with a non-decreasing current
epoch). -/
def pruneOk (limit : Nat) (s : ObservedAttesters) : List CacheOp → Bool
  | [] => true
  | op :: rest =>
      (match op with
       | .pruneAt e => decide (s.lowestPermissibleEpoch ≤ e - 1)
       | _ => true) && pruneOk limit (CacheOp.apply limit s op) rest

/-- Observe epochs `0..=N` in increasing order, starting from the empty cache,
with validator index `vs e` at epoch `e`. -/
def observeEpochs (limit : Nat) (vs : Nat → Nat) : Nat → ObservedAttesters
  | 0 => (ObservedAttesters.default.observeAttestingValidator limit 0 (vs 0)).2
  | n + 1 =>
      ((observeEpochs limit vs n).observeAttestingValidator limit (n + 1) (vs (n + 1))).2

/-! ## Network behaviour coordinator (behaviour.rs) -/

/-- Opaque peer identifier. -/
abbrev PeerId := Nat

/-- Gossipsub message identifier (the gossip delivery-id). -/
abbrev MessageId := Nat

/-- Raw topic hash carried on gossip messages. -/
abbrev TopicHash := Nat

/-- `EnrForkId`: the fork digest plus next-fork metadata. -/
structure EnrForkId where
  forkDigest : Nat
  nextForkVersion : Nat
  nextForkEpoch : Nat
deriving DecidableEq

/-- `GossipTopic`: message kind, encoding and fork digest; equality is over
all three fields. Kind and encoding are opaque here. -/
structure GossipTopic where
  kind : Nat
  encoding : Nat
  forkDigest : Nat
deriving DecidableEq

/-- `MetaData`: local sequence number and subnet bitfield (opaque). -/
structure MetaData where
  seqNumber : Nat
  attnets : Nat
deriving DecidableEq

/-- `RPCResponse` kinds. Kinds other than pong/metadata/status are collapsed
into one constructor: behaviour.rs treats them all uniformly (propagated
upward unchanged). -/
inductive RPCResponse where
  | pong (data : Nat)
  | metaDataResp (md : MetaData)
  | statusResp (payload : Nat)
  | otherResp (payload : Nat)
deriving DecidableEq

/-- `RPCCodedResponse`: a successful response, or any other coded outcome
(error response codes, stream terminations), all handled by the catch-all arm. -/
inductive RPCCodedResponse where
  | success (response : RPCResponse)
  | otherCoded (code : Nat)
deriving DecidableEq

/-- `RPCRequest` kinds, with the same collapsing of uniformly-treated kinds. -/
inductive RPCRequest where
  | ping (data : Nat)
  | metaDataReq
  | status (payload : Nat)
  | otherReq (payload : Nat)
deriving DecidableEq

/-- `RPCEvent`: request, response, or protocol error. -/
inductive RPCEvent where
  | request (id : Nat) (req : RPCRequest)
  | response (id : Nat) (resp : RPCCodedResponse)
  | error (id : Nat) (protocol : Nat) (err : Nat)
deriving DecidableEq

/-- `BehaviourEvent`: the application-level events surfaced by the coordinator. -/
inductive BehaviourEvent where
  | rpc (peer : PeerId) (event : RPCEvent)
  | pubsubMessage (id : MessageId) (source : PeerId) (topics : List TopicHash)
      (message : Nat)
  | peerSubscribed (peer : PeerId) (topic : TopicHash)
  | statusPeer (peer : PeerId)
deriving DecidableEq

/-- `PeerManagerEvent`: the directives the Peer Manager emits. -/
inductive PeerManagerEvent where
  | status (peer : PeerId)
  | ping (peer : PeerId)
  | metaData (peer : PeerId)
  | disconnectPeer (peer : PeerId)
  | banPeer (peer : PeerId)
deriving DecidableEq

/-- Notifications delivered to the Peer Manager (recorded as a log; the Peer
Manager itself is an external collaborator). -/
inductive PeerManagerCall where
  | pingRequest (peer : PeerId) (seq : Nat)
  | pongResponse (peer : PeerId) (seq : Nat)
  | metaDataResponse (peer : PeerId) (md : MetaData)
  | peerStatusd (peer : PeerId)
  | rpcError (peer : PeerId) (protocol : Nat) (err : Nat)
deriving DecidableEq

/-- An inbound gossipsub message: original source, topics, and opaque payload. -/
structure GossipsubMessage where
  source : PeerId
  topics : List TopicHash
  data : Nat
deriving DecidableEq

/-- `GossipsubEvent`. -/
inductive GossipsubEvent where
  | message (propagationSource : PeerId) (id : MessageId) (msg : GossipsubMessage)
  | subscribed (peer : PeerId) (topic : TopicHash)
  | unsubscribed (peer : PeerId) (topic : TopicHash)
deriving DecidableEq

/-- The behaviour coordinator state. Engine-internal state is modelled by its
observable content: the gossipsub engine by its subscription set, the RPC
engine by the sink of sent events, the peer manager by its pending directive
queue plus the log of notifications it received, discovery by its local
fork id record. -/
structure Behaviour where
  gossipsubSubscriptions : List GossipTopic
  rpcOut : List (PeerId × RPCEvent)
  pmQueue : List PeerManagerEvent
  pmCalls : List PeerManagerCall
  events : List BehaviourEvent
  metaData : MetaData
  seenGossipMessages : List MessageId
  globalsSubscriptions : List GossipTopic
  enrForkId : EnrForkId
  discoveryEnrForkId : EnrForkId
deriving DecidableEq

/-- Capacity of the gossip deduplication cache (`LruCache::new(100_000)`). -/
def seenGossipCapacity : Nat := 100000

/-- `LruCache::put` on the dedup set: returns the previous entry for the key,
if any, and the updated cache, most-recently-used first; inserting a fresh key
at capacity drops the least-recently-used entry. -/
def lruPut (cache : List MessageId) (id : MessageId) : Option Unit × List MessageId :=
  if id ∈ cache then (some (), id :: cache.erase id)
  else (none, (id :: cache).take seenGossipCapacity)

/-- `Gossipsub::subscribe`: returns whether the engine state changed. -/
def gossipsubSubscribe (subs : List GossipTopic) (t : GossipTopic) :
    Bool × List GossipTopic :=
  if t ∈ subs then (false, subs) else (true, t :: subs)

/-- `Gossipsub::unsubscribe`: returns whether the engine state changed. -/
def gossipsubUnsubscribe (subs : List GossipTopic) (t : GossipTopic) :
    Bool × List GossipTopic :=
  if t ∈ subs then (true, subs.erase t) else (false, subs)

/-- `Behaviour::subscribe`: insert into the shared globals set, then forward to
the gossipsub engine, whose answer is returned. -/
def Behaviour.subscribe (s : Behaviour) (topic : GossipTopic) : Bool × Behaviour :=
  let globals := if topic ∈ s.globalsSubscriptions then s.globalsSubscriptions
    else topic :: s.globalsSubscriptions
  let result := gossipsubSubscribe s.gossipsubSubscriptions topic
  (result.1, { s with globalsSubscriptions := globals,
                      gossipsubSubscriptions := result.2 })

/-- `Behaviour::unsubscribe`: remove from the shared globals set, then forward
to the gossipsub engine. -/
def Behaviour.unsubscribe (s : Behaviour) (topic : GossipTopic) : Bool × Behaviour :=
  let result := gossipsubUnsubscribe s.gossipsubSubscriptions topic
  (result.1, { s with globalsSubscriptions := s.globalsSubscriptions.erase topic,
                      gossipsubSubscriptions := result.2 })

/-- `Behaviour::update_fork_version`: push the new id into discovery's record,
snapshot the subscribed topics, unsubscribe from each, resubscribe with the
fork digest rewritten, and finally replace the stored fork id. -/
def Behaviour.updateForkVersion (s : Behaviour) (enrForkId : EnrForkId) : Behaviour :=
  let s0 := { s with discoveryEnrForkId := enrForkId }
  let subscribedTopics := s0.globalsSubscriptions
  let s1 := subscribedTopics.foldl (fun acc t => (acc.unsubscribe t).2) s0
  let s2 := subscribedTopics.foldl
    (fun acc t => (acc.subscribe { t with forkDigest := enrForkId.forkDigest }).2) s1
  { s2 with enrForkId := enrForkId }

/-- `Behaviour::send_rpc`: forward directly to the RPC engine. -/
def Behaviour.sendRpc (s : Behaviour) (peer : PeerId) (event : RPCEvent) : Behaviour :=
  { s with rpcOut := s.rpcOut ++ [(peer, event)] }

/-- `Behaviour::send_ping`: a ping request or a pong response, carrying the
current local sequence number. -/
def Behaviour.sendPing (s : Behaviour) (id : Nat) (peer : PeerId)
    (isRequest : Bool) : Behaviour :=
  let event := if isRequest then RPCEvent.request id (.ping s.metaData.seqNumber)
    else RPCEvent.response id (.success (.pong s.metaData.seqNumber))
  s.sendRpc peer event

/-- `Behaviour::send_meta_data_request` (request id 0 in the source). -/
def Behaviour.sendMetaDataRequest (s : Behaviour) (peer : PeerId) : Behaviour :=
  s.sendRpc peer (.request 0 .metaDataReq)

/-- `Behaviour::send_meta_data_response`: reply with the current local metadata. -/
def Behaviour.sendMetaDataResponse (s : Behaviour) (id : Nat) (peer : PeerId) :
    Behaviour :=
  s.sendRpc peer (.response id (.success (.metaDataResp s.metaData)))

/-- The `NetworkBehaviourEventProcess<RPCMessage>` handler: ping and metadata
traffic is intercepted inline, status and protocol errors are both forwarded to
the peer manager and enqueued upward, everything else is enqueued unchanged. -/
def Behaviour.injectRpcEvent (s : Behaviour) (peer : PeerId) (event : RPCEvent) :
    Behaviour :=
  match event with
  | .request id (.ping data) =>
      Behaviour.sendPing { s with pmCalls := s.pmCalls ++ [.pingRequest peer data] }
        id peer false
  | .request id .metaDataReq => s.sendMetaDataResponse id peer
  | .response _ (.success (.pong data)) =>
      { s with pmCalls := s.pmCalls ++ [.pongResponse peer data] }
  | .response _ (.success (.metaDataResp md)) =>
      { s with pmCalls := s.pmCalls ++ [.metaDataResponse peer md] }
  | .request _ (.status _) =>
      { s with pmCalls := s.pmCalls ++ [.peerStatusd peer],
               events := s.events ++ [.rpc peer event] }
  | .response _ (.success (.statusResp _)) =>
      { s with pmCalls := s.pmCalls ++ [.peerStatusd peer],
               events := s.events ++ [.rpc peer event] }
  | .error _ protocol err =>
      { s with pmCalls := s.pmCalls ++ [.rpcError peer protocol err],
               events := s.events ++ [.rpc peer event] }
  | _ => { s with events := s.events ++ [.rpc peer event] }

/-- The `NetworkBehaviourEventProcess<GossipsubEvent>` handler. `decode` stands
for `PubsubMessage::decode`; `none` models a decode failure (logged, dropped).
A first sighting of a delivery-id enqueues the decoded message; a repeat
sighting is decoded only for diagnostic logging and enqueues nothing. -/
def Behaviour.injectGossipsubEvent (decode : List TopicHash → Nat → Option Nat)
    (s : Behaviour) : GossipsubEvent → Behaviour
  | .message propagationSource id msg =>
      let r := lruPut s.seenGossipMessages id
      let s1 := { s with seenGossipMessages := r.2 }
      if r.1 = none then
        match decode msg.topics msg.data with
        | none => s1
        | some m =>
            { s1 with events :=
                s1.events ++ [.pubsubMessage id propagationSource msg.topics m] }
      else s1
  | .subscribed peer topic => { s with events := s.events ++ [.peerSubscribed peer topic] }
  | .unsubscribed _ _ => s

/-- The directive-drain loop inside `Behaviour::poll`: directives are taken in
order; a `Status` directive returns a `StatusPeer` event immediately, a ping or
metadata directive triggers a fire-and-forget send, disconnect and ban are
unimplemented in this version of the source. -/
def Behaviour.pollPeerManager :
    List PeerManagerEvent → Behaviour → Option BehaviourEvent × Behaviour
  | [], s => (none, { s with pmQueue := [] })
  | .status peer :: rest, s => (some (.statusPeer peer), { s with pmQueue := rest })
  | .ping peer :: rest, s => Behaviour.pollPeerManager rest (s.sendPing 0 peer true)
  | .metaData peer :: rest, s =>
      Behaviour.pollPeerManager rest (s.sendMetaDataRequest peer)
  | .disconnectPeer _ :: rest, s => Behaviour.pollPeerManager rest s
  | .banPeer _ :: rest, s => Behaviour.pollPeerManager rest s

/-- `Behaviour::poll`: drive the peer manager drain; if it produced no event,
dequeue the head of the application-event queue, if any. -/
def Behaviour.poll (s : Behaviour) : Option BehaviourEvent × Behaviour :=
  match Behaviour.pollPeerManager s.pmQueue s with
  | (some event, s1) => (some event, s1)
  | (none, s1) =>
      match s1.events with
      | [] => (none, s1)
      | e :: rest => (some e, { s1 with events := rest })

/-- The RPC sends a single directive triggers during the drain. -/
def directiveSends (seq : Nat) : PeerManagerEvent → List (PeerId × RPCEvent)
  | .ping peer => [(peer, .request 0 (.ping seq))]
  | .metaData peer => [(peer, .request 0 .metaDataReq)]
  | _ => []

/-- The RPC sends a directive list triggers during the drain. -/
def sendsOf (seq : Nat) : List PeerManagerEvent → List (PeerId × RPCEvent)
  | [] => []
  | d :: rest => directiveSends seq d ++ sendsOf seq rest

/-- Whether a directive list contains no `Status` directive. -/
def statusFree : List PeerManagerEvent → Bool
  | [] => true
  | .status _ :: _ => false
  | _ :: rest => statusFree rest

/-- An empty coordinator state, used for concrete instantiations. -/
def emptyBehaviour : Behaviour :=
  { gossipsubSubscriptions := [], rpcOut := [], pmQueue := [], pmCalls := [],
    events := [], metaData := { seqNumber := 1, attnets := 0 },
    seenGossipMessages := [], globalsSubscriptions := [],
    enrForkId := { forkDigest := 0, nextForkVersion := 0, nextForkEpoch := 0 },
    discoveryEnrForkId := { forkDigest := 0, nextForkVersion := 0, nextForkEpoch := 0 } }

/-- A coordinator state whose directive queue holds a `Status` directive between
two pings while an application event is already queued. -/
def c2State : Behaviour :=
  { emptyBehaviour with
      pmQueue := [PeerManagerEvent.ping 1, .status 2, .ping 3],
      events := [BehaviourEvent.peerSubscribed 7 9] }

/-- A coordinator state with a status-free directive queue and a queued
application event. -/
def c2StateB : Behaviour :=
  { emptyBehaviour with
      pmQueue := [PeerManagerEvent.ping 1, .metaData 2],
      events := [BehaviourEvent.peerSubscribed 3 4] }

/-- A coordinator state subscribed to two topics under fork digest 5. -/
def c8State : Behaviour :=
  { emptyBehaviour with
      gossipsubSubscriptions := [⟨1, 0, 5⟩, ⟨2, 0, 5⟩],
      globalsSubscriptions := [⟨1, 0, 5⟩, ⟨2, 0, 5⟩],
      enrForkId := { forkDigest := 5, nextForkVersion := 0, nextForkEpoch := 0 } }

/-! ## Helper lemmas about lists and the bucket-selection primitives -/

theorem getElemQ_some_lt {α : Type} {l : List α} {i : Nat} {a : α}
    (h : l[i]? = some a) : i < l.length := by
  induction l generalizing i with
  | nil => simp at h
  | cons x xs ih =>
      cases i with
      | zero => simp
      | succ j =>
          simp only [List.getElem?_cons_succ] at h
          exact Nat.succ_lt_succ (ih h)

theorem getElemQ_some_mem {α : Type} {l : List α} {i : Nat} {a : α}
    (h : l[i]? = some a) : a ∈ l := by
  induction l generalizing i with
  | nil => simp at h
  | cons x xs ih =>
      cases i with
      | zero => simp at h; simp [h]
      | succ j =>
          simp only [List.getElem?_cons_succ] at h
          exact List.mem_cons_of_mem x (ih h)

theorem getElemQ_set_self {α : Type} {l : List α} {i : Nat} (a : α)
    (h : i < l.length) : (l.set i a)[i]? = some a := by
  induction l generalizing i with
  | nil => simp at h
  | cons x xs ih =>
      cases i with
      | zero => simp [List.set]
      | succ j =>
          simp only [List.set, List.getElem?_cons_succ]
          exact ih (Nat.lt_of_succ_lt_succ h)

theorem getElemQ_append_length {α : Type} (l : List α) (a : α) :
    (l ++ [a])[l.length]? = some a := by
  induction l with
  | nil => rfl
  | cons x xs ih => simp [ih]

theorem list_set_mem {α : Type} {l : List α} {i : Nat} {a b : α}
    (h : b ∈ l.set i a) : b ∈ l ∨ b = a := by
  induction l generalizing i with
  | nil => simp at h
  | cons x xs ih =>
      cases i with
      | zero =>
          rcases List.mem_cons.mp h with h1 | h1
          · exact Or.inr h1
          · exact Or.inl (List.mem_cons_of_mem x h1)
      | succ j =>
          rcases List.mem_cons.mp h with h1 | h1
          · exact Or.inl (by simp [h1])
          · rcases ih h1 with h2 | h2
            · exact Or.inl (List.mem_cons_of_mem x h2)
            · exact Or.inr h2

theorem findEpochIdx_some {E : Nat} :
    ∀ {l : List EpochBitfield} {i : Nat}, findEpochIdx E l = some i →
      ∃ bf, l[i]? = some bf ∧ bf.epoch = E := by
  intro l
  induction l with
  | nil => intro i h; simp [findEpochIdx] at h
  | cons b rest ih =>
      intro i h
      by_cases hb : b.epoch = E
      · simp [findEpochIdx, hb] at h
        exact ⟨b, by simp [← h], hb⟩
      · simp [findEpochIdx, hb] at h
        rcases h with ⟨j, hj, rfl⟩
        rcases ih hj with ⟨bf, h1, h2⟩
        exact ⟨bf, by simpa using h1, h2⟩

theorem findEpochIdx_none {E : Nat} :
    ∀ {l : List EpochBitfield}, findEpochIdx E l = none →
      ∀ b ∈ l, b.epoch ≠ E := by
  intro l
  induction l with
  | nil => intro _ b hb; simp at hb
  | cons x rest ih =>
      intro h b hb
      by_cases hx : x.epoch = E
      · simp [findEpochIdx, hx] at h
      · simp [findEpochIdx, hx] at h
        rcases List.mem_cons.mp hb with rfl | hmem
        · exact hx
        · exact ih h b hmem

theorem findEpochIdx_append {E : Nat} :
    ∀ {l : List EpochBitfield} {b : EpochBitfield},
      findEpochIdx E l = none → b.epoch = E →
      findEpochIdx E (l ++ [b]) = some l.length := by
  intro l
  induction l with
  | nil => intro b _ hb; simp [findEpochIdx, hb]
  | cons x rest ih =>
      intro b h hb
      by_cases hx : x.epoch = E
      · simp [findEpochIdx, hx] at h
      · have h2 : findEpochIdx E rest = none := by
          simpa [findEpochIdx, hx] using h
        simp [findEpochIdx, hx, ih h2 hb]

theorem findEpochIdx_set_none {E : Nat} :
    ∀ {l : List EpochBitfield} {i : Nat} {b : EpochBitfield},
      findEpochIdx E l = none → b.epoch = E → i < l.length →
      findEpochIdx E (l.set i b) = some i := by
  intro l
  induction l with
  | nil => intro i b _ _ hi; simp at hi
  | cons x rest ih =>
      intro i b h hb hi
      by_cases hx : x.epoch = E
      · simp [findEpochIdx, hx] at h
      · simp [findEpochIdx, hx] at h
        cases i with
        | zero => simp [List.set, findEpochIdx, hb]
        | succ j =>
            simp only [List.set, findEpochIdx, hx, if_neg]
            rw [ih h hb (Nat.lt_of_succ_lt_succ hi)]
            rfl

theorem findEpochIdx_set_some {E : Nat} :
    ∀ {l : List EpochBitfield} {i : Nat} {b : EpochBitfield},
      findEpochIdx E l = some i → b.epoch = E →
      findEpochIdx E (l.set i b) = some i := by
  intro l
  induction l with
  | nil => intro i b h _; simp [findEpochIdx] at h
  | cons x rest ih =>
      intro i b h hb
      by_cases hx : x.epoch = E
      · simp [findEpochIdx, hx] at h
        simp [← h, List.set, findEpochIdx, hb]
      · simp [findEpochIdx, hx] at h
        rcases h with ⟨j, hj, rfl⟩
        simp only [List.set, findEpochIdx, hx, if_neg]
        rw [ih hj hb]
        rfl

theorem minEpochIdxAux_lt :
    ∀ (rest : List EpochBitfield) (i bestIdx bestEpoch : Nat), bestIdx < i →
      minEpochIdxAux rest i bestIdx bestEpoch < i + rest.length := by
  intro rest
  induction rest with
  | nil => intro i bestIdx bestEpoch h; simpa [minEpochIdxAux] using h
  | cons b r ih =>
      intro i bestIdx bestEpoch h
      simp only [minEpochIdxAux]
      by_cases hb : b.epoch < bestEpoch
      · rw [if_pos hb]
        have := ih (i + 1) i b.epoch (Nat.lt_succ_self i)
        simpa [Nat.add_assoc, Nat.add_comm, Nat.add_left_comm] using this
      · rw [if_neg hb]
        have := ih (i + 1) bestIdx bestEpoch (Nat.lt_trans h (Nat.lt_succ_self i))
        simpa [Nat.add_assoc, Nat.add_comm, Nat.add_left_comm] using this

theorem minEpochIdx_lt {l : List EpochBitfield} (h : l ≠ []) :
    minEpochIdx l < l.length := by
  cases l with
  | nil => exact absurd rfl h
  | cons b rest =>
      have := minEpochIdxAux_lt rest 1 0 b.epoch (Nat.lt_succ_self 0)
      simpa [minEpochIdx, Nat.add_comm] using this

theorem prune_lowest (s : ObservedAttesters) (e : Nat) :
    (s.prune e).lowestPermissibleEpoch = e - 1 := rfl

theorem prune_bitfields (s : ObservedAttesters) (e : Nat) :
    (s.prune e).bitfields = s.bitfields.filter fun b => decide (e - 1 ≤ b.epoch) := rfl

theorem prune_mem {s : ObservedAttesters} {e : Nat} {b : EpochBitfield}
    (h : b ∈ (s.prune e).bitfields) : b ∈ s.bitfields := by
  rw [prune_bitfields] at h
  exact List.mem_of_mem_filter h

theorem prune_length_le (s : ObservedAttesters) (e : Nat) :
    (s.prune e).bitfields.length ≤ s.bitfields.length := by
  rw [prune_bitfields]
  exact List.length_filter_le _ _

theorem maxCapacity_eq : ObservedAttesters.maxCapacity = 2 := rfl

theorem getBitfieldIndex_err (s : ObservedAttesters) (E : Nat)
    (h : E < s.lowestPermissibleEpoch) :
    s.getBitfieldIndex E = (.error (.epochTooLow E s.lowestPermissibleEpoch), s) := by
  unfold ObservedAttesters.getBitfieldIndex
  rw [if_pos h]

theorem getBitfieldIndex_prune_eq (s : ObservedAttesters) (E : Nat)
    (h1 : ¬ E < s.lowestPermissibleEpoch)
    (hp : s.lowestPermissibleEpoch + ObservedAttesters.maxCapacity < E + 1) :
    s.getBitfieldIndex E = (s.prune E).getBitfieldIndex E := by
  have h2 : ¬ E < (s.prune E).lowestPermissibleEpoch := by
    rw [prune_lowest]; omega
  have h3 : ¬ ((s.prune E).lowestPermissibleEpoch + ObservedAttesters.maxCapacity
      < E + 1) := by
    rw [prune_lowest, maxCapacity_eq]; omega
  unfold ObservedAttesters.getBitfieldIndex
  rw [if_neg h1, if_pos hp, if_neg h2, if_neg h3]

theorem selectBitfieldIndex_spec (s : ObservedAttesters) (E : Nat) :
    ∃ idx s2 bf,
      s.selectBitfieldIndex E = (.ok idx, s2) ∧
      s2.lowestPermissibleEpoch = s.lowestPermissibleEpoch ∧
      findEpochIdx E s2.bitfields = some idx ∧
      s2.bitfields[idx]? = some bf ∧
      bf.epoch = E ∧
      (∀ b ∈ s2.bitfields, b ∈ s.bitfields ∨ b.bitfield = []) ∧
      (s.bitfields.length ≤ 2 → s2.bitfields.length ≤ 2) := by
  unfold ObservedAttesters.selectBitfieldIndex
  rcases hf : findEpochIdx E s.bitfields with _ | i
  · by_cases hlen : s.bitfields.length < ObservedAttesters.maxCapacity ∨ s.bitfields = []
    · rw [if_pos hlen]
      refine ⟨s.bitfields.length, _, _, rfl, rfl, findEpochIdx_append hf rfl,
        getElemQ_append_length _ _, rfl, ?_, ?_⟩
      · intro b hb
        rcases List.mem_append.mp hb with hb2 | hb2
        · exact Or.inl hb2
        · rcases List.mem_singleton.mp hb2 with rfl
          exact Or.inr rfl
      · intro _
        rw [maxCapacity_eq] at hlen
        rcases hlen with hl | hl
        · simp only [List.length_append, List.length_cons, List.length_nil]
          omega
        · simp [hl]
    · rw [if_neg hlen]
      push_neg at hlen
      have hne : s.bitfields ≠ [] := hlen.2
      have hlt : minEpochIdx s.bitfields < s.bitfields.length := minEpochIdx_lt hne
      refine ⟨minEpochIdx s.bitfields, _, _, rfl, rfl,
        findEpochIdx_set_none hf rfl hlt, getElemQ_set_self _ hlt, rfl, ?_, ?_⟩
      · intro b hb
        rcases list_set_mem hb with hb2 | hb2
        · exact Or.inl hb2
        · rcases hb2 with rfl
          exact Or.inr rfl
      · intro hl
        simpa using hl
  · rcases findEpochIdx_some hf with ⟨bf, hget, hep⟩
    exact ⟨i, s, bf, rfl, rfl, hf, hget, hep, fun b hb => Or.inl hb, fun hl => hl⟩

theorem getBitfieldIndex_ok (s : ObservedAttesters) (E : Nat)
    (h : s.lowestPermissibleEpoch ≤ E) :
    ∃ idx s2 bf,
      s.getBitfieldIndex E = (.ok idx, s2) ∧
      findEpochIdx E s2.bitfields = some idx ∧
      s2.bitfields[idx]? = some bf ∧
      bf.epoch = E ∧
      s2.lowestPermissibleEpoch ≤ E ∧
      s.lowestPermissibleEpoch ≤ s2.lowestPermissibleEpoch ∧
      ¬ (s2.lowestPermissibleEpoch + ObservedAttesters.maxCapacity < E + 1) ∧
      (∀ b ∈ s2.bitfields, b ∈ s.bitfields ∨ b.bitfield = []) ∧
      (s.bitfields.length ≤ 2 → s2.bitfields.length ≤ 2) := by
  have h1 : ¬ E < s.lowestPermissibleEpoch := Nat.not_lt.mpr h
  by_cases hp : s.lowestPermissibleEpoch + ObservedAttesters.maxCapacity < E + 1
  · have heq : s.getBitfieldIndex E = (s.prune E).selectBitfieldIndex E := by
      unfold ObservedAttesters.getBitfieldIndex
      rw [if_neg h1, if_pos hp]
    rcases selectBitfieldIndex_spec (s.prune E) E with
      ⟨idx, s2, bf, he, hlow, hfind, hget, hep, hframe, hlen⟩
    rw [prune_lowest] at hlow
    rw [maxCapacity_eq] at hp
    refine ⟨idx, s2, bf, heq.trans he, hfind, hget, hep, ?_, ?_, ?_, ?_, ?_⟩
    · omega
    · omega
    · rw [hlow, maxCapacity_eq]; omega
    · intro b hb
      rcases hframe b hb with hb2 | hb2
      · exact Or.inl (prune_mem hb2)
      · exact Or.inr hb2
    · intro hl
      exact hlen (le_trans (prune_length_le s E) hl)
  · have heq : s.getBitfieldIndex E = s.selectBitfieldIndex E := by
      unfold ObservedAttesters.getBitfieldIndex
      rw [if_neg h1, if_neg hp]
    rcases selectBitfieldIndex_spec s E with
      ⟨idx, s2, bf, he, hlow, hfind, hget, hep, hframe, hlen⟩
    refine ⟨idx, s2, bf, heq.trans he, hfind, hget, hep, ?_, ?_, ?_, hframe, hlen⟩
    · rw [hlow]; exact h
    · rw [hlow]
    · rw [hlow]; exact hp

theorem list_getD_eq {α : Type} {l : List α} (d : α) :
    ∀ {i : Nat} (h : i < l.length), l.getD i d = l[i] := by
  induction l with
  | nil => intro i h; simp at h
  | cons x xs ih =>
      intro i h
      cases i with
      | zero => rfl
      | succ j =>
          simp only [List.getD_cons_succ, List.getElem_cons_succ]
          exact ih (Nat.lt_of_succ_lt_succ h)

theorem list_getD_ge {α : Type} {l : List α} (d : α) :
    ∀ {i : Nat}, l.length ≤ i → l.getD i d = d := by
  induction l with
  | nil => intro i _; cases i <;> rfl
  | cons x xs ih =>
      intro i h
      cases i with
      | zero => simp at h
      | succ j =>
          simp only [List.getD_cons_succ]
          exact ih (Nat.le_of_succ_le_succ h)

theorem list_getD_set_self {α : Type} {l : List α} (d : α) {i : Nat} (a : α)
    (h : i < l.length) : (l.set i a).getD i d = a := by
  have h2 : i < (l.set i a).length := by simpa using h
  rw [list_getD_eq d h2]
  simp

/-- Full case analysis of `EpochBitfield::observe_attesting_validator`: it
fails exactly on an index above the registry limit; otherwise it returns the
previous value of the bit, leaves the epoch unchanged, ends with the bit set
and in bounds, and mutates nothing when the bit was already set. -/
theorem EpochBitfield.observe_cases (limit v : Nat) (bf : EpochBitfield) :
    (limit < v ∧
      bf.observeAttestingValidator limit v = .error (.validatorIndexTooHigh v)) ∨
    (¬ limit < v ∧ ∃ r bf2,
      bf.observeAttestingValidator limit v = .ok (r, bf2) ∧
      bf2.epoch = bf.epoch ∧
      v < bf2.bitfield.length ∧
      bf2.bitfield.getD v false = true ∧
      (r = true → bf2 = bf) ∧
      r = bf.bitfield.getD v false) := by
  by_cases h1 : limit < v
  · left
    refine ⟨h1, ?_⟩
    unfold EpochBitfield.observeAttestingValidator
    rw [if_pos h1]
  · right
    refine ⟨h1, ?_⟩
    unfold EpochBitfield.observeAttestingValidator
    rw [if_neg h1]
    by_cases h2 : v < bf.bitfield.length
    · rw [dif_pos h2]
      cases hbit : bf.bitfield[v] with
      | true =>
          refine ⟨true, bf, rfl, rfl, h2, ?_, fun _ => rfl, ?_⟩
          · rw [list_getD_eq false h2, hbit]
          · rw [list_getD_eq false h2, hbit]
      | false =>
          refine ⟨false, _, rfl, rfl, by simpa using h2,
            list_getD_set_self false true h2, by simp, ?_⟩
          rw [list_getD_eq false h2, hbit]
    · rw [dif_neg h2]
      have hlen : (bf.bitfield ++
          List.replicate (v + 1 - bf.bitfield.length) false).length = v + 1 := by
        simp only [List.length_append, List.length_replicate]
        omega
      have hv1 : v < (bf.bitfield ++
          List.replicate (v + 1 - bf.bitfield.length) false).length := by
        rw [hlen]; omega
      refine ⟨false, _, rfl, rfl, by simpa using hv1,
        list_getD_set_self false true hv1, by simp, ?_⟩
      rw [list_getD_ge false (Nat.not_lt.mp h2)]

/-- `EpochBitfield::has_attested` on an in-range index reads the bit. -/
theorem EpochBitfield.hasAttested_eq (limit v : Nat) (bf : EpochBitfield)
    (hv : v ≤ limit) :
    bf.hasAttested limit v = .ok (bf.bitfield.getD v false) := by
  unfold EpochBitfield.hasAttested
  rw [if_neg (Nat.not_lt.mpr hv)]

/-- The post-state of `has_attested` is exactly the post-state of the
bucket-selection step: no observation bit is read-modified. -/
theorem hasAttested_snd (s : ObservedAttesters) (limit E v : Nat) :
    (s.hasAttested limit E v).2 = (s.getBitfieldIndex E).2 := by
  unfold ObservedAttesters.hasAttested
  rcases hg : s.getBitfieldIndex E with ⟨r, s1⟩
  cases r with
  | error e => rfl
  | ok i =>
      rcases hb : s1.bitfields[i]? with _ | bf <;> simp [hb]

theorem observe_eq_of (s : ObservedAttesters) (limit E v : Nat) {idx : Nat}
    {s2 : ObservedAttesters} {bf : EpochBitfield}
    (hg : s.getBitfieldIndex E = (.ok idx, s2))
    (hget : s2.bitfields[idx]? = some bf) :
    s.observeAttestingValidator limit E v =
      (match EpochBitfield.observeAttestingValidator limit bf v with
       | .error e => (.error e, s2)
       | .ok (r, bf2) => (.ok r, { s2 with bitfields := s2.bitfields.set idx bf2 })) := by
  unfold ObservedAttesters.observeAttestingValidator
  simp only [hg, hget]

theorem hasAttested_eq_of (s : ObservedAttesters) (limit E v : Nat) {idx : Nat}
    {s2 : ObservedAttesters} {bf : EpochBitfield}
    (hg : s.getBitfieldIndex E = (.ok idx, s2))
    (hget : s2.bitfields[idx]? = some bf) :
    s.hasAttested limit E v = (EpochBitfield.hasAttested limit bf v, s2) := by
  unfold ObservedAttesters.hasAttested
  simp only [hg, hget]

theorem observe_err_of (s : ObservedAttesters) (limit E v : Nat)
    (h : E < s.lowestPermissibleEpoch) :
    s.observeAttestingValidator limit E v
      = (.error (.epochTooLow E s.lowestPermissibleEpoch), s) := by
  unfold ObservedAttesters.observeAttestingValidator
  simp only [getBitfieldIndex_err s E h]

theorem hasAttested_err_of (s : ObservedAttesters) (limit E v : Nat)
    (h : E < s.lowestPermissibleEpoch) :
    s.hasAttested limit E v
      = (.error (.epochTooLow E s.lowestPermissibleEpoch), s) := by
  unfold ObservedAttesters.hasAttested
  simp only [getBitfieldIndex_err s E h]

theorem gbi_lowest_mono (s : ObservedAttesters) (E : Nat) :
    s.lowestPermissibleEpoch ≤ (s.getBitfieldIndex E).2.lowestPermissibleEpoch := by
  by_cases hE : E < s.lowestPermissibleEpoch
  · rw [getBitfieldIndex_err s E hE]
  · rcases getBitfieldIndex_ok s E (Nat.not_lt.mp hE) with
      ⟨idx, s2, bf, hg, _, _, _, _, hmono, _, _, _⟩
    rw [hg]
    exact hmono

theorem gbi_frame (s : ObservedAttesters) (E : Nat) :
    ∀ b ∈ (s.getBitfieldIndex E).2.bitfields, b ∈ s.bitfields ∨ b.bitfield = [] := by
  by_cases hE : E < s.lowestPermissibleEpoch
  · rw [getBitfieldIndex_err s E hE]
    exact fun b hb => Or.inl hb
  · rcases getBitfieldIndex_ok s E (Nat.not_lt.mp hE) with
      ⟨idx, s2, bf, hg, _, _, _, _, _, _, hframe, _⟩
    rw [hg]
    exact hframe

theorem gbi_length_le2 (s : ObservedAttesters) (E : Nat)
    (h : s.bitfields.length ≤ 2) :
    (s.getBitfieldIndex E).2.bitfields.length ≤ 2 := by
  by_cases hE : E < s.lowestPermissibleEpoch
  · rw [getBitfieldIndex_err s E hE]
    exact h
  · rcases getBitfieldIndex_ok s E (Nat.not_lt.mp hE) with
      ⟨idx, s2, bf, hg, _, _, _, _, _, _, _, hlen⟩
    rw [hg]
    exact hlen h

theorem observe_snd_lowest (s : ObservedAttesters) (limit E v : Nat) :
    (s.observeAttestingValidator limit E v).2.lowestPermissibleEpoch =
      (s.getBitfieldIndex E).2.lowestPermissibleEpoch := by
  unfold ObservedAttesters.observeAttestingValidator
  rcases hg : s.getBitfieldIndex E with ⟨r, s1⟩
  cases r with
  | error e => rfl
  | ok i =>
      rcases hb : s1.bitfields[i]? with _ | bf
      · simp [hb]
      · rcases ho : EpochBitfield.observeAttestingValidator limit bf v with e2 | ⟨r2, bf2⟩
        · simp [hb, ho]
        · simp [hb, ho]

theorem observe_snd_length (s : ObservedAttesters) (limit E v : Nat) :
    (s.observeAttestingValidator limit E v).2.bitfields.length =
      (s.getBitfieldIndex E).2.bitfields.length := by
  unfold ObservedAttesters.observeAttestingValidator
  rcases hg : s.getBitfieldIndex E with ⟨r, s1⟩
  cases r with
  | error e => rfl
  | ok i =>
      rcases hb : s1.bitfields[i]? with _ | bf
      · simp [hb]
      · rcases ho : EpochBitfield.observeAttestingValidator limit bf v with e2 | ⟨r2, bf2⟩
        · simp [hb, ho]
        · simp [hb, ho]

theorem observe_lowest_mono (s : ObservedAttesters) (limit E v : Nat) :
    s.lowestPermissibleEpoch ≤
      (s.observeAttestingValidator limit E v).2.lowestPermissibleEpoch := by
  rw [observe_snd_lowest]
  exact gbi_lowest_mono s E

theorem hasAttested_lowest_mono (s : ObservedAttesters) (limit E v : Nat) :
    s.lowestPermissibleEpoch ≤
      (s.hasAttested limit E v).2.lowestPermissibleEpoch := by
  rw [hasAttested_snd]
  exact gbi_lowest_mono s E

/-! ## Claim theorems for the observation cache -/

/-- Counterexample to claim C1 as stated: from the default cache, the pure
query `has_attested(2, 0)` changes the cache state (it prunes and allocates a
bucket for epoch 2 through `get_bitfield_index`). -/
theorem c1_counterexample :
    (ObservedAttesters.default.hasAttested 10 2 0).2 ≠ ObservedAttesters.default := by
  decide

/-- Claim C1, amended: `has_attested` is not a pure query — it performs exactly
the bucket-selection mutation of `get_bitfield_index` (possible pruning and
allocation of an empty bitfield, under the write lock), but it never sets an
observation bit: its post-state equals the bucket-selection post-state, the
lowest-permissible-epoch only advances, and every retained bitfield afterwards
is either an original bitfield unchanged or a freshly allocated empty one. -/
theorem c1_has_attested_frame (limit : Nat) (s : ObservedAttesters) (e v : Nat) :
    (s.hasAttested limit e v).2 = (s.getBitfieldIndex e).2 ∧
    s.lowestPermissibleEpoch ≤ (s.hasAttested limit e v).2.lowestPermissibleEpoch ∧
    ∀ bf ∈ (s.hasAttested limit e v).2.bitfields,
      bf ∈ s.bitfields ∨ bf.bitfield = [] := by
  refine ⟨hasAttested_snd s limit e v, hasAttested_lowest_mono s limit e v, ?_⟩
  rw [hasAttested_snd]
  exact gbi_frame s e

/-- Witness for C1 at a concrete input. -/
theorem c1_witness :
    (ObservedAttesters.default.hasAttested 10 2 0).2
        = (ObservedAttesters.default.getBitfieldIndex 2).2 ∧
    ((⟨[], 2⟩ : EpochBitfield) ∈ ObservedAttesters.default.bitfields ∨
      (⟨[], 2⟩ : EpochBitfield).bitfield = []) := by
  refine ⟨(c1_has_attested_frame 10 ObservedAttesters.default 2 0).1, ?_⟩
  exact (c1_has_attested_frame 10 ObservedAttesters.default 2 0).2.2 ⟨[], 2⟩ (by decide)

/-- Counterexample to claim C3 as stated: after observing epoch 5 the floor is
4, but a subsequent `prune(0)` drops the lowest-permissible-epoch back to 0 —
so over sequences that include `prune`, the floor is not monotone. -/
theorem c3_counterexample :
    (runOps 10 ObservedAttesters.default
        [.observe 5 0, .pruneAt 0]).lowestPermissibleEpoch
      < (runOps 10 ObservedAttesters.default [.observe 5 0]).lowestPermissibleEpoch := by
  decide

/-- Claim C3, amended: the lowest-permissible-epoch never decreases under
`observe` and `has_attested`; `prune(e)` resets it to `e - 1` (saturating), so
monotonicity over a whole trace additionally requires every `prune` to be
issued with an epoch whose induced floor is at or above the current one — the
way the beacon chain drives it. -/
theorem c3_lowest_monotone (limit : Nat) (s : ObservedAttesters)
    (ops : List CacheOp) (h : pruneOk limit s ops = true) :
    s.lowestPermissibleEpoch ≤ (runOps limit s ops).lowestPermissibleEpoch := by
  induction ops generalizing s with
  | nil => exact Nat.le_refl _
  | cons op rest ih =>
      rw [runOps]
      cases op with
      | observe e v =>
          simp only [pruneOk, Bool.and_eq_true] at h
          exact le_trans (observe_lowest_mono s limit e v) (ih _ h.2)
      | query e v =>
          simp only [pruneOk, Bool.and_eq_true] at h
          exact le_trans (hasAttested_lowest_mono s limit e v) (ih _ h.2)
      | pruneAt e =>
          simp only [pruneOk, Bool.and_eq_true, decide_eq_true_eq] at h
          refine le_trans ?_ (ih _ h.2)
          simpa [CacheOp.apply, prune_lowest] using h.1

/-- Witness for C3 at a concrete trace. -/
theorem c3_witness :
    pruneOk 10 ObservedAttesters.default [.observe 3 1, .pruneAt 4, .query 6 0]
        = true ∧
    ObservedAttesters.default.lowestPermissibleEpoch ≤
      (runOps 10 ObservedAttesters.default
        [.observe 3 1, .pruneAt 4, .query 6 0]).lowestPermissibleEpoch :=
  ⟨by decide, c3_lowest_monotone 10 ObservedAttesters.default _ (by decide)⟩

/-- Claim C6: `observe` and `has_attested` fail with the `EpochTooLow` error
exactly when the requested epoch is strictly below the current
lowest-permissible-epoch (and then the state is unchanged and the error
carries the epoch and the floor); for an epoch at or above the floor the
result is never `EpochTooLow`, so a stale epoch is rejected even if it was
previously observed. -/
theorem c6_epoch_too_low (limit : Nat) (s : ObservedAttesters) (e v : Nat) :
    (e < s.lowestPermissibleEpoch →
      s.observeAttestingValidator limit e v
          = (.error (.epochTooLow e s.lowestPermissibleEpoch), s) ∧
      s.hasAttested limit e v
          = (.error (.epochTooLow e s.lowestPermissibleEpoch), s)) ∧
    (isEpochTooLowResult (s.observeAttestingValidator limit e v).1 = true ↔
      e < s.lowestPermissibleEpoch) ∧
    (isEpochTooLowResult (s.hasAttested limit e v).1 = true ↔
      e < s.lowestPermissibleEpoch) := by
  have hobs : ¬ e < s.lowestPermissibleEpoch →
      isEpochTooLowResult (s.observeAttestingValidator limit e v).1 = false := by
    intro hE
    rcases getBitfieldIndex_ok s e (Nat.not_lt.mp hE) with
      ⟨idx, s2, bf, hg, _, hget, _, _, _, _, _, _⟩
    rw [observe_eq_of s limit e v hg hget]
    rcases EpochBitfield.observe_cases limit v bf with ⟨_, ho⟩ | ⟨_, r, bf2, ho, _⟩
    · rw [ho]
      rfl
    · rw [ho]
      rfl
  have hhas : ¬ e < s.lowestPermissibleEpoch →
      isEpochTooLowResult (s.hasAttested limit e v).1 = false := by
    intro hE
    rcases getBitfieldIndex_ok s e (Nat.not_lt.mp hE) with
      ⟨idx, s2, bf, hg, _, hget, _, _, _, _, _, _⟩
    rw [hasAttested_eq_of s limit e v hg hget]
    unfold EpochBitfield.hasAttested
    by_cases hv : limit < v
    · rw [if_pos hv]
      rfl
    · rw [if_neg hv]
      rfl
  refine ⟨fun h => ⟨observe_err_of s limit e v h, hasAttested_err_of s limit e v h⟩,
    ⟨?_, ?_⟩, ⟨?_, ?_⟩⟩
  · intro h
    by_contra hE
    rw [hobs hE] at h
    exact Bool.false_ne_true h
  · intro h
    rw [observe_err_of s limit e v h]
    rfl
  · intro h
    by_contra hE
    rw [hhas hE] at h
    exact Bool.false_ne_true h
  · intro h
    rw [hasAttested_err_of s limit e v h]
    rfl

/-- Witness for C6 at concrete inputs (floor 5; epoch 3 is rejected with the
exact error, epoch 7 is not rejected as too low). -/
theorem c6_witness :
    (ObservedAttesters.mk 5 []).observeAttestingValidator 10 3 0
        = (.error (.epochTooLow 3 5), ObservedAttesters.mk 5 []) ∧
    isEpochTooLowResult ((ObservedAttesters.mk 5 []).hasAttested 10 3 0).1 = true ∧
    ¬ isEpochTooLowResult
        ((ObservedAttesters.mk 5 []).observeAttestingValidator 10 7 0).1 = true := by
  refine ⟨((c6_epoch_too_low 10 (ObservedAttesters.mk 5 []) 3 0).1 (by decide)).1,
    (c6_epoch_too_low 10 (ObservedAttesters.mk 5 []) 3 0).2.2.mpr (by decide),
    fun hh => absurd ((c6_epoch_too_low 10 (ObservedAttesters.mk 5 []) 7 0).2.1.mp hh)
      (by decide)⟩

/-- Claim C10: a call with validator index exactly equal to the registry limit
is accepted — the guard rejects only indices strictly greater than the limit,
so for any epoch at or above the floor, both `observe` and `has_attested` at
index `limit` return `Ok`. -/
theorem c10_registry_limit_boundary (limit : Nat) (s : ObservedAttesters) (e : Nat)
    (hE : s.lowestPermissibleEpoch ≤ e) :
    (∃ r s2, s.observeAttestingValidator limit e limit = (.ok r, s2)) ∧
    (∃ r s2, s.hasAttested limit e limit = (.ok r, s2)) := by
  rcases getBitfieldIndex_ok s e hE with
    ⟨idx, s2, bf, hg, _, hget, _, _, _, _, _, _⟩
  constructor
  · rw [observe_eq_of s limit e limit hg hget]
    rcases EpochBitfield.observe_cases limit limit bf with ⟨h1, _⟩ | ⟨_, r, bf2, ho, _⟩
    · exact absurd h1 (Nat.lt_irrefl limit)
    · rw [ho]
      exact ⟨r, _, rfl⟩
  · rw [hasAttested_eq_of s limit e limit hg hget]
    rw [EpochBitfield.hasAttested_eq limit limit bf (Nat.le_refl limit)]
    exact ⟨_, _, rfl⟩

/-- Witness for C10 at a concrete input (limit 5, index 5). -/
theorem c10_witness :
    ObservedAttesters.default.lowestPermissibleEpoch ≤ 0 ∧
    (∃ r s2, ObservedAttesters.default.observeAttestingValidator 5 0 5 = (.ok r, s2)) ∧
    (∃ r s2, ObservedAttesters.default.hasAttested 5 0 5 = (.ok r, s2)) := by
  have h := c10_registry_limit_boundary 5 ObservedAttesters.default 0 (by decide)
  exact ⟨by decide, h.1, h.2⟩

theorem getBitfieldIndex_found (s : ObservedAttesters) (E i : Nat)
    (h1 : ¬ E < s.lowestPermissibleEpoch)
    (h2 : ¬ (s.lowestPermissibleEpoch + ObservedAttesters.maxCapacity < E + 1))
    (h3 : findEpochIdx E s.bitfields = some i) :
    s.getBitfieldIndex E = (.ok i, s) := by
  unfold ObservedAttesters.getBitfieldIndex
  rw [if_neg h1, if_neg h2]
  unfold ObservedAttesters.selectBitfieldIndex
  rw [h3]

theorem list_set_self {α : Type} :
    ∀ {l : List α} {i : Nat} {a : α}, l[i]? = some a → l.set i a = l := by
  intro l
  induction l with
  | nil => intro i a h; simp at h
  | cons x xs ih =>
      intro i a h
      cases i with
      | zero =>
          simp only [List.getElem?_cons_zero, Option.some.injEq] at h
          simp [List.set, h]
      | succ j =>
          simp only [List.getElem?_cons_succ] at h
          simp [List.set, ih h]

theorem bitSetAt_of (s : ObservedAttesters) (E v i : Nat) (bf : EpochBitfield)
    (h1 : findEpochIdx E s.bitfields = some i)
    (h2 : s.bitfields[i]? = some bf)
    (h3 : bf.bitfield.getD v false = true) :
    s.bitSetAt E v = true := by
  unfold ObservedAttesters.bitSetAt
  simp only [h1, h2]
  exact h3

theorem of_bitSetAt {s : ObservedAttesters} {E v : Nat}
    (h : s.bitSetAt E v = true) :
    ∃ i bf, findEpochIdx E s.bitfields = some i ∧ s.bitfields[i]? = some bf ∧
      bf.bitfield.getD v false = true := by
  unfold ObservedAttesters.bitSetAt at h
  rcases hf : findEpochIdx E s.bitfields with _ | i
  · simp only [hf] at h
    exact absurd h (by simp)
  · simp only [hf] at h
    rcases hb : s.bitfields[i]? with _ | bf
    · simp only [hb] at h
      exact absurd h (by simp)
    · simp only [hb] at h
      exact ⟨i, bf, rfl, hb, h⟩

theorem findEpochIdx_filter_of (E : Nat) (p : EpochBitfield → Bool)
    (hp : ∀ b : EpochBitfield, b.epoch = E → p b = true) :
    ∀ (l : List EpochBitfield) (i : Nat) (bf : EpochBitfield),
      findEpochIdx E l = some i → l[i]? = some bf →
      ∃ j, findEpochIdx E (l.filter p) = some j ∧ (l.filter p)[j]? = some bf := by
  intro l
  induction l with
  | nil => intro i bf hf _; simp [findEpochIdx] at hf
  | cons x rest ih =>
      intro i bf hf hb
      by_cases hx : x.epoch = E
      · simp [findEpochIdx, hx] at hf
        rw [← hf] at hb
        simp only [List.getElem?_cons_zero, Option.some.injEq] at hb
        rw [List.filter_cons, if_pos (hp x hx)]
        refine ⟨0, ?_, ?_⟩
        · simp [findEpochIdx, hx]
        · simp [hb]
      · simp [findEpochIdx, hx] at hf
        rcases hf with ⟨j0, hj0, rfl⟩
        simp only [List.getElem?_cons_succ] at hb
        rcases ih j0 bf hj0 hb with ⟨j, hfj, hbj⟩
        rw [List.filter_cons]
        by_cases hpx : p x = true
        · rw [if_pos hpx]
          refine ⟨j + 1, ?_, ?_⟩
          · simp [findEpochIdx, hx, hfj]
          · simpa using hbj
        · rw [if_neg hpx]
          exact ⟨j, hfj, hbj⟩

theorem bitSetAt_prune (s : ObservedAttesters) (E v : Nat)
    (h : s.bitSetAt E v = true) : (s.prune E).bitSetAt E v = true := by
  rcases of_bitSetAt h with ⟨i, bf, hf, hb, hbit⟩
  have hp : ∀ b : EpochBitfield, b.epoch = E → (decide (E - 1 ≤ b.epoch)) = true := by
    intro b hbe
    rw [hbe]
    exact decide_eq_true (Nat.sub_le E 1)
  rcases findEpochIdx_filter_of E _ hp s.bitfields i bf hf hb with ⟨j, hfj, hbj⟩
  exact bitSetAt_of _ E v j bf (by rw [prune_bitfields]; exact hfj)
    (by rw [prune_bitfields]; exact hbj) hbit

theorem gbi_of_bitSet (s : ObservedAttesters) (E v : Nat)
    (hE : s.lowestPermissibleEpoch ≤ E) (h : s.bitSetAt E v = true) :
    ∃ idx s2 bf, s.getBitfieldIndex E = (.ok idx, s2) ∧
      s2.bitfields[idx]? = some bf ∧
      findEpochIdx E s2.bitfields = some idx ∧
      bf.bitfield.getD v false = true ∧
      s2.bitSetAt E v = true ∧
      s2.lowestPermissibleEpoch ≤ E := by
  have h1 : ¬ E < s.lowestPermissibleEpoch := Nat.not_lt.mpr hE
  by_cases hc : s.lowestPermissibleEpoch + ObservedAttesters.maxCapacity < E + 1
  · have heq := getBitfieldIndex_prune_eq s E h1 hc
    have h2 := bitSetAt_prune s E v h
    rcases of_bitSetAt h2 with ⟨j, bf, hfj, hbj, hbit⟩
    have hfound : (s.prune E).getBitfieldIndex E = (.ok j, s.prune E) := by
      apply getBitfieldIndex_found
      · rw [prune_lowest]; omega
      · rw [prune_lowest, maxCapacity_eq]; omega
      · exact hfj
    refine ⟨j, s.prune E, bf, heq.trans hfound, hbj, hfj, hbit, h2, ?_⟩
    rw [prune_lowest]; omega
  · rcases of_bitSetAt h with ⟨i, bf, hf, hb, hbit⟩
    exact ⟨i, s, bf, getBitfieldIndex_found s E i h1 hc hf, hb, hf, hbit, h, hE⟩

/-- Counterexample to claim C5 as stated: with the registry limit 10, after
`observe(5,0)` (which returns `Ok(false)`), the operations `observe(6,1)`,
`prune(5)` and `observe(4,2)` never advance the retention window past epoch 5
(the floor stays at or below 5 at every point), yet the subsequent
`observe(5,0)` returns `Ok(false)` instead of the claimed `Ok(true)` — the
stale `prune(5)` lowers the floor to 4, after which `observe(4,2)` evicts the
epoch-5 bucket by minimal-epoch replacement. -/
theorem c5_counterexample :
    (ObservedAttesters.default.observeAttestingValidator 10 5 0).1 = .ok false ∧
    (runOps 10 ObservedAttesters.default
        [.observe 5 0]).lowestPermissibleEpoch ≤ 5 ∧
    (runOps 10 ObservedAttesters.default
        [.observe 5 0, .observe 6 1]).lowestPermissibleEpoch ≤ 5 ∧
    (runOps 10 ObservedAttesters.default
        [.observe 5 0, .observe 6 1, .pruneAt 5]).lowestPermissibleEpoch ≤ 5 ∧
    (runOps 10 ObservedAttesters.default
        [.observe 5 0, .observe 6 1, .pruneAt 5,
          .observe 4 2]).lowestPermissibleEpoch ≤ 5 ∧
    ((runOps 10 ObservedAttesters.default
        [.observe 5 0, .observe 6 1, .pruneAt 5,
          .observe 4 2]).observeAttestingValidator 10 5 0).1 = .ok false := by
  refine ⟨by decide, by decide, by decide, by decide, by decide, by decide⟩

/-- Claim C5, amended: for an epoch `E` at or above the floor and a validator
index within the registry limit, if no retained bucket for `E` has the bit
set, `observe(E, v)` returns `Ok(false)` and leaves the bit retained with `E`
still at or above the floor; and from any state in which `E` is at or above
the floor and the bit is still retained, `observe(E, v)` and
`has_attested(E, v)` return `Ok(true)`, again leaving the bit retained and
`E` at or above the floor — so every subsequent call keeps returning
`Ok(true)` as long as the intervening operations retain the bit. (The
original side condition is insufficient: a stale prune can lower the floor,
after which a lower-epoch observation evicts `E`'s bucket by minimal-epoch
replacement while the floor never exceeds `E`.) -/
theorem c5_observe_idempotent (limit : Nat) (s : ObservedAttesters) (E v : Nat)
    (hE : s.lowestPermissibleEpoch ≤ E) (hv : v ≤ limit) :
    ((∀ bf ∈ s.bitfields, bf.epoch = E → bf.bitfield.getD v false = false) →
      ∃ s2, s.observeAttestingValidator limit E v = (.ok false, s2) ∧
        s2.bitSetAt E v = true ∧ s2.lowestPermissibleEpoch ≤ E) ∧
    (s.bitSetAt E v = true →
      (∃ s2, s.observeAttestingValidator limit E v = (.ok true, s2) ∧
        s2.bitSetAt E v = true ∧ s2.lowestPermissibleEpoch ≤ E) ∧
      (∃ s3, s.hasAttested limit E v = (.ok true, s3) ∧
        s3.bitSetAt E v = true ∧ s3.lowestPermissibleEpoch ≤ E)) := by
  constructor
  · intro hfresh
    rcases getBitfieldIndex_ok s E hE with
      ⟨idx, s1, bf, hg, hfind, hget, hep, hle, hmono, hnop, hframe, hlen⟩
    have hbit : bf.bitfield.getD v false = false := by
      rcases hframe bf (getElemQ_some_mem hget) with hmem | hempty
      · exact hfresh bf hmem hep
      · rw [hempty]
        rfl
    rcases EpochBitfield.observe_cases limit v bf with
      ⟨h1, _⟩ | ⟨_, r, bf2, ho, hep2, hlt2, hbit2, _, hr⟩
    · exact absurd h1 (Nat.not_lt.mpr hv)
    have hrfalse : r = false := by rw [hr, hbit]
    subst hrfalse
    refine ⟨{ s1 with bitfields := s1.bitfields.set idx bf2 }, ?_, ?_, hle⟩
    · rw [observe_eq_of s limit E v hg hget, ho]
    · refine bitSetAt_of _ E v idx bf2 ?_ ?_ hbit2
      · exact findEpochIdx_set_some hfind (by rw [hep2, hep])
      · exact getElemQ_set_self bf2 (getElemQ_some_lt hget)
  · intro hset
    rcases gbi_of_bitSet s E v hE hset with
      ⟨idx, s2, bf, hg, hget, hfind, hbit, hset2, hle2⟩
    constructor
    · rcases EpochBitfield.observe_cases limit v bf with
        ⟨h1, _⟩ | ⟨_, r, bf2, ho, _, _, _, hsame, hr⟩
      · exact absurd h1 (Nat.not_lt.mpr hv)
      · have hrt : r = true := by rw [hr, hbit]
        subst hrt
        have hbf2 : bf2 = bf := hsame rfl
        subst hbf2
        refine ⟨s2, ?_, hset2, hle2⟩
        rw [observe_eq_of s limit E v hg hget, ho]
        show (Except.ok true, { s2 with bitfields := s2.bitfields.set idx bf2 })
          = (Except.ok true, s2)
        rw [list_set_self hget]
    · refine ⟨s2, ?_, hset2, hle2⟩
      rw [hasAttested_eq_of s limit E v hg hget,
        EpochBitfield.hasAttested_eq limit v bf hv, hbit]

/-- Witness for C5 at concrete inputs (empty cache, epoch 1, validator 3,
limit 4): the first observation returns false and retains the bit; on the
resulting state the bit is retained and both calls return true. -/
theorem c5_witness :
    ObservedAttesters.default.lowestPermissibleEpoch ≤ 1 ∧ (3 : Nat) ≤ 4 ∧
    (∃ s2, ObservedAttesters.default.observeAttestingValidator 4 1 3
        = (.ok false, s2) ∧
      s2.bitSetAt 1 3 = true ∧ s2.lowestPermissibleEpoch ≤ 1) ∧
    (ObservedAttesters.default.observeAttestingValidator 4 1 3).2.bitSetAt 1 3
        = true ∧
    ((∃ s2, ((ObservedAttesters.default.observeAttestingValidator
          4 1 3).2).observeAttestingValidator 4 1 3 = (.ok true, s2) ∧
        s2.bitSetAt 1 3 = true ∧ s2.lowestPermissibleEpoch ≤ 1) ∧
      (∃ s3, ((ObservedAttesters.default.observeAttestingValidator
          4 1 3).2).hasAttested 4 1 3 = (.ok true, s3) ∧
        s3.bitSetAt 1 3 = true ∧ s3.lowestPermissibleEpoch ≤ 1)) := by
  refine ⟨by decide, by decide, ?_, by decide, ?_⟩
  · exact (c5_observe_idempotent 4 ObservedAttesters.default 1 3 (by decide)
      (by decide)).1 (by decide)
  · exact (c5_observe_idempotent 4
      (ObservedAttesters.default.observeAttestingValidator 4 1 3).2 1 3
      (by decide) (by decide)).2 (by decide)

theorem map_set_epoch {l : List EpochBitfield} {bf bf2 : EpochBitfield} :
    ∀ {i : Nat}, l[i]? = some bf → bf2.epoch = bf.epoch →
      (l.set i bf2).map EpochBitfield.epoch = l.map EpochBitfield.epoch := by
  induction l with
  | nil => intro i hget _; simp at hget
  | cons x xs ih =>
      intro i hget hep
      cases i with
      | zero =>
          simp only [List.getElem?_cons_zero, Option.some.injEq] at hget
          simp [hep, hget]
      | succ j =>
          simp only [List.getElem?_cons_succ] at hget
          simp [List.set, ih hget hep]

theorem select_push (s : ObservedAttesters) (E : Nat)
    (h3 : findEpochIdx E s.bitfields = none)
    (h4 : s.bitfields.length < ObservedAttesters.maxCapacity ∨ s.bitfields = []) :
    s.selectBitfieldIndex E = (.ok s.bitfields.length,
      { s with bitfields :=
          s.bitfields ++ [EpochBitfield.new E (epochInitialCapacity s.bitfields E)] }) := by
  unfold ObservedAttesters.selectBitfieldIndex
  simp only [h3]
  rw [if_pos h4]

theorem gbi_push (s : ObservedAttesters) (E : Nat)
    (h1 : ¬ E < s.lowestPermissibleEpoch)
    (h2 : ¬ (s.lowestPermissibleEpoch + ObservedAttesters.maxCapacity < E + 1))
    (h3 : findEpochIdx E s.bitfields = none)
    (h4 : s.bitfields.length < ObservedAttesters.maxCapacity ∨ s.bitfields = []) :
    s.getBitfieldIndex E = (.ok s.bitfields.length,
      { s with bitfields :=
          s.bitfields ++ [EpochBitfield.new E (epochInitialCapacity s.bitfields E)] }) := by
  unfold ObservedAttesters.getBitfieldIndex
  rw [if_neg h1, if_neg h2]
  exact select_push s E h3 h4

theorem observe_snd_map (s : ObservedAttesters) (limit E v : Nat) {idx : Nat}
    {s2 : ObservedAttesters} {bf : EpochBitfield}
    (hg : s.getBitfieldIndex E = (.ok idx, s2))
    (hget : s2.bitfields[idx]? = some bf) :
    (s.observeAttestingValidator limit E v).2.bitfields.map EpochBitfield.epoch
      = s2.bitfields.map EpochBitfield.epoch := by
  rw [observe_eq_of s limit E v hg hget]
  rcases EpochBitfield.observe_cases limit v bf with
    ⟨_, ho⟩ | ⟨_, r, bf2, ho, hep2, _, _, _, _⟩
  · rw [ho]
  · rw [ho]
    exact map_set_epoch hget hep2

theorem observeEpochs_zero (limit : Nat) (vs : Nat → Nat) :
    (observeEpochs limit vs 0).lowestPermissibleEpoch = 0 ∧
    (observeEpochs limit vs 0).bitfields.map EpochBitfield.epoch = [0] := by
  have hg : ObservedAttesters.default.getBitfieldIndex 0
      = (.ok 0, ObservedAttesters.mk 0 [⟨[], 0⟩]) := rfl
  have hget : (ObservedAttesters.mk 0 [(⟨[], 0⟩ : EpochBitfield)]).bitfields[0]?
      = some ⟨[], 0⟩ := rfl
  constructor
  · show (ObservedAttesters.default.observeAttestingValidator limit 0
        (vs 0)).2.lowestPermissibleEpoch = 0
    rw [observe_snd_lowest, hg]
  · show (ObservedAttesters.default.observeAttestingValidator limit 0
        (vs 0)).2.bitfields.map EpochBitfield.epoch = [0]
    rw [observe_snd_map ObservedAttesters.default limit 0 (vs 0) hg hget]
    rfl

theorem observeEpochs_inv (limit : Nat) (vs : Nat → Nat) :
    ∀ N, (observeEpochs limit vs N).lowestPermissibleEpoch = N - 1 ∧
      (observeEpochs limit vs N).bitfields.map EpochBitfield.epoch
        = if N = 0 then [0] else [N - 1, N] := by
  intro N
  induction N with
  | zero => simpa using observeEpochs_zero limit vs
  | succ n ih =>
      rcases ih with ⟨ihlow, ihmap⟩
      by_cases hn : n = 0
      · subst hn
        rw [if_pos rfl] at ihmap
        rcases hbl : (observeEpochs limit vs 0).bitfields with _ | ⟨b1, _ | ⟨b2, rest⟩⟩
        · rw [hbl] at ihmap; simp at ihmap
        · rw [hbl] at ihmap
          have hb1 : b1.epoch = 0 := by simpa using ihmap
          have hg2 : (observeEpochs limit vs 0).getBitfieldIndex 1
              = (.ok 1, { observeEpochs limit vs 0 with
                  bitfields := [b1, EpochBitfield.new 1 (epochInitialCapacity [b1] 1)] }) := by
            rw [gbi_push (observeEpochs limit vs 0) 1 (by rw [ihlow]; omega)
              (by rw [ihlow, maxCapacity_eq]; omega)
              (by rw [hbl]; simp [findEpochIdx, hb1])
              (by rw [hbl]; exact Or.inl (by rw [maxCapacity_eq]; simp)), hbl]
            rfl
          have hget2 : ({ observeEpochs limit vs 0 with
              bitfields := [b1, EpochBitfield.new 1 (epochInitialCapacity [b1] 1)] }
                : ObservedAttesters).bitfields[1]?
              = some (EpochBitfield.new 1 (epochInitialCapacity [b1] 1)) := rfl
          constructor
          · show ((observeEpochs limit vs 0).observeAttestingValidator limit 1
                (vs 1)).2.lowestPermissibleEpoch = 0 + 1 - 1
            rw [observe_snd_lowest, hg2]
            show (observeEpochs limit vs 0).lowestPermissibleEpoch = 0 + 1 - 1
            rw [ihlow]
          · show ((observeEpochs limit vs 0).observeAttestingValidator limit 1
                (vs 1)).2.bitfields.map EpochBitfield.epoch
              = if 0 + 1 = 0 then [0] else [0 + 1 - 1, 0 + 1]
            rw [observe_snd_map (observeEpochs limit vs 0) limit 1 (vs 1) hg2 hget2]
            simp [hb1, EpochBitfield.new]
        · rw [hbl] at ihmap; simp at ihmap
      · rw [if_neg hn] at ihmap
        rcases hbl : (observeEpochs limit vs n).bitfields with
          _ | ⟨b1, _ | ⟨b2, _ | ⟨b3, rest⟩⟩⟩
        · rw [hbl] at ihmap; simp at ihmap
        · rw [hbl] at ihmap; simp at ihmap
        · rw [hbl] at ihmap
          obtain ⟨hb1, hb2⟩ : b1.epoch = n - 1 ∧ b2.epoch = n := by simpa using ihmap
          have hpr_bf : ((observeEpochs limit vs n).prune (n + 1)).bitfields = [b2] := by
            have hnle : ¬ n ≤ n - 1 := by omega
            rw [prune_bitfields, hbl]
            simp [List.filter_cons, hb1, hb2, hnle]
          have hfindpr : findEpochIdx (n + 1) [b2] = none := by
            simp [findEpochIdx, hb2]
          have hsel := select_push ((observeEpochs limit vs n).prune (n + 1)) (n + 1)
            (by rw [hpr_bf]; exact hfindpr)
            (by rw [hpr_bf]; exact Or.inl (by rw [maxCapacity_eq]; simp))
          have hgbi : (observeEpochs limit vs n).getBitfieldIndex (n + 1)
              = ((observeEpochs limit vs n).prune (n + 1)).selectBitfieldIndex (n + 1) := by
            unfold ObservedAttesters.getBitfieldIndex
            rw [if_neg (by rw [ihlow]; omega),
              if_pos (by rw [ihlow, maxCapacity_eq]; omega)]
          have hg2 : (observeEpochs limit vs n).getBitfieldIndex (n + 1)
              = (.ok 1, { (observeEpochs limit vs n).prune (n + 1) with
                  bitfields := [b2, EpochBitfield.new (n + 1)
                    (epochInitialCapacity [b2] (n + 1))] }) := by
            rw [hgbi, hsel, hpr_bf]
            rfl
          have hget2 : ({ (observeEpochs limit vs n).prune (n + 1) with
              bitfields := [b2, EpochBitfield.new (n + 1)
                (epochInitialCapacity [b2] (n + 1))] } : ObservedAttesters).bitfields[1]?
              = some (EpochBitfield.new (n + 1) (epochInitialCapacity [b2] (n + 1))) := rfl
          constructor
          · show ((observeEpochs limit vs n).observeAttestingValidator limit (n + 1)
                (vs (n + 1))).2.lowestPermissibleEpoch = n + 1 - 1
            rw [observe_snd_lowest, hg2]
            show ((observeEpochs limit vs n).prune (n + 1)).lowestPermissibleEpoch
              = n + 1 - 1
            rw [prune_lowest]
          · show ((observeEpochs limit vs n).observeAttestingValidator limit (n + 1)
                (vs (n + 1))).2.bitfields.map EpochBitfield.epoch
              = if n + 1 = 0 then [0] else [n + 1 - 1, n + 1]
            rw [observe_snd_map (observeEpochs limit vs n) limit (n + 1)
              (vs (n + 1)) hg2 hget2]
            simp [hb2, EpochBitfield.new]
        · rw [hbl] at ihmap; simp at ihmap

/-- Claim C4: starting from the empty cache, after observing (with any
validator index within the registry limit) at epochs `0..=N` in increasing
order, the set of retained bitfield epochs is exactly `{max(0, N-1)..=N}`
(stated via Nat saturating subtraction as `Finset.Icc (N-1) N`); and from any
state retaining at most 2 bitfields, every sequence of observe, has_attested
and prune calls keeps the retained count at most 2. -/
theorem c4_sliding_window (limit N : Nat) (vs : Nat → Nat) (_h : ∀ i, vs i ≤ limit) :
    ((observeEpochs limit vs N).bitfields.map EpochBitfield.epoch).toFinset
        = Finset.Icc (N - 1) N ∧
    ∀ (limitB : Nat) (s : ObservedAttesters) (ops : List CacheOp),
      s.bitfields.length ≤ 2 → (runOps limitB s ops).bitfields.length ≤ 2 := by
  constructor
  · rcases observeEpochs_inv limit vs N with ⟨_, hmap⟩
    rw [hmap]
    by_cases hN : N = 0
    · subst hN
      rw [if_pos rfl]
      ext x
      simp [Finset.mem_Icc]
    · rw [if_neg hN]
      ext x
      simp only [List.toFinset_cons, List.toFinset_nil, insert_emptyc_eq,
        Finset.mem_insert, Finset.mem_singleton, Finset.mem_Icc]
      omega
  · intro limitB s ops
    induction ops generalizing s with
    | nil => exact fun h2 => h2
    | cons op rest ih =>
        intro h2
        rw [runOps]
        refine ih _ ?_
        cases op with
        | observe e v =>
            show (s.observeAttestingValidator limitB e v).2.bitfields.length ≤ 2
            rw [observe_snd_length]
            exact gbi_length_le2 s e h2
        | query e v =>
            show (s.hasAttested limitB e v).2.bitfields.length ≤ 2
            rw [hasAttested_snd]
            exact gbi_length_le2 s e h2
        | pruneAt e =>
            exact le_trans (prune_length_le s e) h2

/-- Witness for C4 at concrete inputs: observing epochs 0..=3 retains exactly
epochs 2 and 3, and a concrete mixed trace keeps at most 2 buckets. -/
theorem c4_witness :
    (∀ i : Nat, (fun _ : Nat => 0) i ≤ 1) ∧
    ((observeEpochs 1 (fun _ : Nat => 0) 3).bitfields.map EpochBitfield.epoch).toFinset
        = Finset.Icc 2 3 ∧
    (runOps 1 ObservedAttesters.default
        [.observe 0 0, .pruneAt 5, .query 9 1]).bitfields.length ≤ 2 := by
  refine ⟨fun i => Nat.zero_le 1, ?_, ?_⟩
  · exact (c4_sliding_window 1 3 (fun _ : Nat => 0) (fun i => Nat.zero_le 1)).1
  · exact (c4_sliding_window 1 3 (fun _ : Nat => 0) (fun i => Nat.zero_le 1)).2 1
      ObservedAttesters.default _ (by decide)

/-! ## Claim theorems for the behaviour coordinator -/

/-- Claim C9: an inbound RPC Ping request is handled inline — the peer manager
is notified and a pong carrying the current local sequence number is sent —
and the upward event queue is untouched (the resulting state differs from the
input only in the peer-manager log and the RPC send sink); an inbound Status
request or Status response is both forwarded to the peer manager and enqueued
as an upward RPC event. -/
theorem c9_rpc_interception (s : Behaviour) (peer : PeerId) (id data payload : Nat) :
    s.injectRpcEvent peer (.request id (.ping data))
        = { s with pmCalls := s.pmCalls ++ [.pingRequest peer data],
                   rpcOut := s.rpcOut ++
                     [(peer, .response id (.success (.pong s.metaData.seqNumber)))] } ∧
    s.injectRpcEvent peer (.request id (.status payload))
        = { s with pmCalls := s.pmCalls ++ [.peerStatusd peer],
                   events := s.events ++ [.rpc peer (.request id (.status payload))] } ∧
    s.injectRpcEvent peer (.response id (.success (.statusResp payload)))
        = { s with pmCalls := s.pmCalls ++ [.peerStatusd peer],
                   events := s.events ++
                     [.rpc peer (.response id (.success (.statusResp payload)))] } :=
  ⟨rfl, rfl, rfl⟩

theorem injectGossip_dup (decode : List TopicHash → Nat → Option Nat) (s : Behaviour)
    (src id : Nat) (msg : GossipsubMessage) (h : id ∈ s.seenGossipMessages) :
    (Behaviour.injectGossipsubEvent decode s (.message src id msg)).events
      = s.events := by
  unfold Behaviour.injectGossipsubEvent lruPut
  simp [h]

theorem injectGossip_mem (decode : List TopicHash → Nat → Option Nat) (s : Behaviour)
    (src id : Nat) (msg : GossipsubMessage) :
    id ∈ (Behaviour.injectGossipsubEvent decode s
      (.message src id msg)).seenGossipMessages := by
  have htake : ∀ l : List MessageId, id ∈ (id :: l).take seenGossipCapacity := by
    intro l
    have hstep : (id :: l).take seenGossipCapacity = id :: l.take 99999 := rfl
    rw [hstep]
    exact List.mem_cons_self _ _
  unfold Behaviour.injectGossipsubEvent lruPut
  by_cases h : id ∈ s.seenGossipMessages
  · rcases hd : decode msg.topics msg.data with _ | m <;> simp [h, hd]
  · rcases hd : decode msg.topics msg.data with _ | m <;> simp [h, hd, htake]

/-- Claim C7: gossip deliveries are deduplicated by delivery-id against the
bounded LRU set. A delivery whose id is still in the set enqueues nothing; a
first sighting enqueues exactly one `PubsubMessage` event on decode success
and nothing on decode failure; and after any delivery the id is in the set, so
delivering the same id twice yields exactly one event — the repeat never
enqueues. -/
theorem c7_gossip_dedup (decode : List TopicHash → Nat → Option Nat) (s : Behaviour)
    (src : PeerId) (id : MessageId) (msg : GossipsubMessage) :
    (id ∈ s.seenGossipMessages →
      (Behaviour.injectGossipsubEvent decode s (.message src id msg)).events
        = s.events) ∧
    (id ∉ s.seenGossipMessages →
      (decode msg.topics msg.data = none →
        (Behaviour.injectGossipsubEvent decode s (.message src id msg)).events
          = s.events) ∧
      (∀ m, decode msg.topics msg.data = some m →
        (Behaviour.injectGossipsubEvent decode s (.message src id msg)).events
          = s.events ++ [.pubsubMessage id src msg.topics m])) ∧
    (∀ srcB msgB,
      (Behaviour.injectGossipsubEvent decode
        (Behaviour.injectGossipsubEvent decode s (.message src id msg))
        (.message srcB id msgB)).events
      = (Behaviour.injectGossipsubEvent decode s (.message src id msg)).events) := by
  refine ⟨fun h => injectGossip_dup decode s src id msg h, fun h => ⟨?_, ?_⟩, ?_⟩
  · intro hd
    unfold Behaviour.injectGossipsubEvent lruPut
    simp [h, hd]
  · intro m hd
    unfold Behaviour.injectGossipsubEvent lruPut
    simp [h, hd]
  · intro srcB msgB
    exact injectGossip_dup decode _ srcB id msgB (injectGossip_mem decode s src id msg)

/-- Witness for C7 at a concrete input: id 5 is fresh, the first delivery
enqueues one event, the repeat delivery enqueues nothing. -/
theorem c7_witness :
    (5 : MessageId) ∉ emptyBehaviour.seenGossipMessages ∧
    (Behaviour.injectGossipsubEvent (fun _ d => some d) emptyBehaviour
        (.message 1 5 ⟨2, [3], 7⟩)).events
      = emptyBehaviour.events ++ [.pubsubMessage 5 1 [3] 7] ∧
    (Behaviour.injectGossipsubEvent (fun _ d => some d)
        (Behaviour.injectGossipsubEvent (fun _ d => some d) emptyBehaviour
          (.message 1 5 ⟨2, [3], 7⟩))
        (.message 4 5 ⟨2, [3], 9⟩)).events
      = (Behaviour.injectGossipsubEvent (fun _ d => some d) emptyBehaviour
          (.message 1 5 ⟨2, [3], 7⟩)).events := by
  have h := c7_gossip_dedup (fun _ d => some d) emptyBehaviour 1 5 ⟨2, [3], 7⟩
  refine ⟨by decide, ?_, ?_⟩
  · exact (h.2.1 (by decide)).2 7 rfl
  · exact h.2.2 4 ⟨2, [3], 9⟩

theorem pollPeerManager_statusFree :
    ∀ (l : List PeerManagerEvent) (s : Behaviour), statusFree l = true →
      Behaviour.pollPeerManager l s =
        (none, { s with pmQueue := [],
                        rpcOut := s.rpcOut ++ sendsOf s.metaData.seqNumber l }) := by
  intro l
  induction l with
  | nil =>
      intro s _
      simp [Behaviour.pollPeerManager, sendsOf]
  | cons d rest ih =>
      intro s h
      cases d with
      | status p => simp [statusFree] at h
      | ping p =>
          simp only [Behaviour.pollPeerManager]
          rw [ih _ h]
          simp [Behaviour.sendPing, Behaviour.sendRpc, sendsOf, directiveSends]
      | metaData p =>
          simp only [Behaviour.pollPeerManager]
          rw [ih _ h]
          simp [Behaviour.sendMetaDataRequest, Behaviour.sendRpc, sendsOf, directiveSends]
      | disconnectPeer p =>
          simp only [Behaviour.pollPeerManager]
          rw [ih _ h]
          simp [sendsOf, directiveSends]
      | banPeer p =>
          simp only [Behaviour.pollPeerManager]
          rw [ih _ h]
          simp [sendsOf, directiveSends]

theorem pollPeerManager_status :
    ∀ (pre : List PeerManagerEvent) (p : PeerId) (post : List PeerManagerEvent)
      (s : Behaviour), statusFree pre = true →
      Behaviour.pollPeerManager (pre ++ .status p :: post) s =
        (some (.statusPeer p),
         { s with pmQueue := post,
                  rpcOut := s.rpcOut ++ sendsOf s.metaData.seqNumber pre }) := by
  intro pre
  induction pre with
  | nil =>
      intro p post s _
      simp [Behaviour.pollPeerManager, sendsOf]
  | cons d rest ih =>
      intro p post s h
      cases d with
      | status q => simp [statusFree] at h
      | ping q =>
          simp only [List.cons_append, Behaviour.pollPeerManager, List.append_eq]
          rw [ih p post _ h]
          simp [Behaviour.sendPing, Behaviour.sendRpc, sendsOf, directiveSends]
      | metaData q =>
          simp only [List.cons_append, Behaviour.pollPeerManager, List.append_eq]
          rw [ih p post _ h]
          simp [Behaviour.sendMetaDataRequest, Behaviour.sendRpc, sendsOf, directiveSends]
      | disconnectPeer q =>
          simp only [List.cons_append, Behaviour.pollPeerManager, List.append_eq]
          rw [ih p post _ h]
          simp [sendsOf, directiveSends]
      | banPeer q =>
          simp only [List.cons_append, Behaviour.pollPeerManager, List.append_eq]
          rw [ih p post _ h]
          simp [sendsOf, directiveSends]

/-- Counterexample to claim C2 as stated: with the directive queue
`[ping 1, status 2, ping 3]` and one queued application event, `poll` stops at
the `Status` directive — the queue is not drained to exhaustion (`ping 3`
remains), the returned event is `StatusPeer 2`, and the queued application
event is not dequeued. -/
theorem c2_counterexample :
    (Behaviour.poll c2State).2.pmQueue ≠ [] ∧
    (Behaviour.poll c2State).1 = some (.statusPeer 2) ∧
    (Behaviour.poll c2State).2.events = c2State.events := by
  refine ⟨by decide, by decide, by decide⟩

/-- Claim C2, amended: `poll` processes Peer Manager directives in order,
translating ping and metadata directives into immediate fire-and-forget RPC
sends, but a `Status` directive makes it return `StatusPeer` immediately,
leaving the remaining directives and the application-event queue untouched.
Only when the directive queue exhausts without a `Status` directive does
`poll` dequeue and return the head of the application-event queue (FIFO), or
no event if that queue is empty. Each invocation returns at most one event by
construction. -/
theorem c2_poll_spec (s : Behaviour) :
    (statusFree s.pmQueue = true →
      Behaviour.poll s =
        (s.events.head?,
         { s with pmQueue := [],
                  rpcOut := s.rpcOut ++ sendsOf s.metaData.seqNumber s.pmQueue,
                  events := s.events.tail })) ∧
    (∀ pre p post, s.pmQueue = pre ++ PeerManagerEvent.status p :: post →
      statusFree pre = true →
      Behaviour.poll s =
        (some (.statusPeer p),
         { s with pmQueue := post,
                  rpcOut := s.rpcOut ++ sendsOf s.metaData.seqNumber pre })) := by
  constructor
  · intro h
    unfold Behaviour.poll
    rw [pollPeerManager_statusFree s.pmQueue s h]
    cases he : s.events with
    | nil => simp [he]
    | cons e rest => simp [he]
  · intro pre p post hq h
    unfold Behaviour.poll
    rw [hq, pollPeerManager_status pre p post s h]

/-- Witness for C2 at concrete states: a status-free queue is drained and the
queued application event is returned; a queue with a status directive returns
`StatusPeer` with the tail of the queue left pending. -/
theorem c2_witness :
    statusFree c2StateB.pmQueue = true ∧
    Behaviour.poll c2StateB =
      (c2StateB.events.head?,
       { c2StateB with pmQueue := [],
                       rpcOut := c2StateB.rpcOut ++
                         sendsOf c2StateB.metaData.seqNumber c2StateB.pmQueue,
                       events := c2StateB.events.tail }) ∧
    c2State.pmQueue
        = [PeerManagerEvent.ping 1] ++ PeerManagerEvent.status 2 ::
          [PeerManagerEvent.ping 3] ∧
    Behaviour.poll c2State =
      (some (.statusPeer 2),
       { c2State with pmQueue := [PeerManagerEvent.ping 3],
                      rpcOut := c2State.rpcOut ++
                        sendsOf c2State.metaData.seqNumber
                          [PeerManagerEvent.ping 1] }) := by
  refine ⟨by decide, (c2_poll_spec c2StateB).1 (by decide), by decide, ?_⟩
  exact (c2_poll_spec c2State).2 [PeerManagerEvent.ping 1] 2 [PeerManagerEvent.ping 3]
    (by decide) (by decide)

theorem gossipsubUnsubscribe_snd (l : List GossipTopic) (t : GossipTopic) :
    (gossipsubUnsubscribe l t).2 = l.erase t := by
  unfold gossipsubUnsubscribe
  by_cases h : t ∈ l
  · rw [if_pos h]
  · rw [if_neg h, List.erase_of_not_mem h]

theorem gossipsubSubscribe_snd (l : List GossipTopic) (t : GossipTopic) :
    (gossipsubSubscribe l t).2 = if t ∈ l then l else t :: l := by
  unfold gossipsubSubscribe
  by_cases h : t ∈ l
  · rw [if_pos h, if_pos h]
  · rw [if_neg h, if_neg h]

theorem unsubFold (l : List GossipTopic) :
    ∀ s : Behaviour,
      l.foldl (fun acc t => (acc.unsubscribe t).2) s =
        { s with
            globalsSubscriptions :=
              l.foldl (fun g t => g.erase t) s.globalsSubscriptions,
            gossipsubSubscriptions :=
              l.foldl (fun g t => g.erase t) s.gossipsubSubscriptions } := by
  induction l with
  | nil => intro s; rfl
  | cons t rest ih =>
      intro s
      simp only [List.foldl_cons]
      rw [ih]
      simp [Behaviour.unsubscribe, gossipsubUnsubscribe_snd]

theorem subFoldMap (d : Nat) (l : List GossipTopic) :
    ∀ s : Behaviour,
      l.foldl (fun acc t => (acc.subscribe { t with forkDigest := d }).2) s =
        { s with
            globalsSubscriptions :=
              (l.map fun t => { t with forkDigest := d }).foldl
                (fun g t => if t ∈ g then g else t :: g) s.globalsSubscriptions,
            gossipsubSubscriptions :=
              (l.map fun t => { t with forkDigest := d }).foldl
                (fun g t => if t ∈ g then g else t :: g) s.gossipsubSubscriptions } := by
  induction l with
  | nil => intro s; rfl
  | cons t rest ih =>
      intro s
      simp only [List.foldl_cons, List.map_cons]
      rw [ih]
      simp [Behaviour.subscribe, gossipsubSubscribe_snd]

theorem eraseSelfFold : ∀ l : List GossipTopic,
    l.foldl (fun g t => g.erase t) l = [] := by
  intro l
  induction l with
  | nil => rfl
  | cons t rest ih =>
      simp only [List.foldl_cons, List.erase_cons_head]
      exact ih

theorem insertAllFold :
    ∀ (l acc : List GossipTopic), l.Nodup → (∀ t ∈ l, t ∉ acc) →
      l.foldl (fun g t => if t ∈ g then g else t :: g) acc = l.reverse ++ acc := by
  intro l
  induction l with
  | nil => intro acc _ _; simp
  | cons t rest ih =>
      intro acc hnd hdisj
      simp only [List.foldl_cons]
      rw [if_neg (hdisj t (List.mem_cons_self t rest))]
      have hd2 : ∀ x ∈ rest, x ∉ t :: acc := by
        intro x hx
        simp only [List.mem_cons]
        rintro (rfl | hxa)
        · exact (List.nodup_cons.mp hnd).1 hx
        · exact hdisj x (List.mem_cons_of_mem t hx) hxa
      rw [ih (t :: acc) (List.Nodup.of_cons hnd) hd2]
      simp

theorem rewriteNodup (l : List GossipTopic) (d d0 : Nat)
    (hd : ∀ t ∈ l, t.forkDigest = d0) (hnd : l.Nodup) :
    (l.map fun t => { t with forkDigest := d }).Nodup := by
  refine List.Nodup.map_on ?_ hnd
  intro x hx y hy hxy
  have hx2 := hd x hx
  have hy2 := hd y hy
  cases x with
  | mk xk xe xf =>
      cases y with
      | mk yk ye yf =>
          simp only [GossipTopic.mk.injEq] at hxy
          simp only at hx2 hy2
          obtain ⟨h1, h2, -⟩ := hxy
          rw [h1, h2, hx2, hy2]

theorem updateForkVersion_eq (s : Behaviour) (newId : EnrForkId)
    (hsync : s.gossipsubSubscriptions = s.globalsSubscriptions)
    (hdigest : ∀ t ∈ s.globalsSubscriptions, t.forkDigest = s.enrForkId.forkDigest)
    (hnodup : s.globalsSubscriptions.Nodup) :
    s.updateForkVersion newId =
      { s with
          discoveryEnrForkId := newId,
          enrForkId := newId,
          globalsSubscriptions :=
            (s.globalsSubscriptions.map
              fun t => { t with forkDigest := newId.forkDigest }).reverse,
          gossipsubSubscriptions :=
            (s.globalsSubscriptions.map
              fun t => { t with forkDigest := newId.forkDigest }).reverse } := by
  have hnd2 := rewriteNodup s.globalsSubscriptions newId.forkDigest
    s.enrForkId.forkDigest hdigest hnodup
  simp only [Behaviour.updateForkVersion]
  rw [unsubFold, subFoldMap]
  simp only [hsync]
  rw [eraseSelfFold]
  rw [insertAllFold _ [] hnd2 (by intro t _; exact List.not_mem_nil t)]
  simp

/-- Claim C8: in a state where the gossipsub engine's subscription set matches
the shared globals set and all subscribed topics carry the current fork digest
(with no duplicates), `update_fork_version(new_id)` preserves the multiset of
(kind, encoding) pairs of the subscribed topics, rewrites every subscribed
topic's fork digest to `new_id`'s digest, stores `new_id` as the current fork
id, and leaves the gossipsub engine's subscription count unchanged. -/
theorem c8_fork_resubscription (s : Behaviour) (newId : EnrForkId)
    (hsync : s.gossipsubSubscriptions = s.globalsSubscriptions)
    (hdigest : ∀ t ∈ s.globalsSubscriptions, t.forkDigest = s.enrForkId.forkDigest)
    (hnodup : s.globalsSubscriptions.Nodup) :
    ((s.updateForkVersion newId).globalsSubscriptions.map
        fun t => (t.kind, t.encoding)).Perm
      (s.globalsSubscriptions.map fun t => (t.kind, t.encoding)) ∧
    (∀ t ∈ (s.updateForkVersion newId).globalsSubscriptions,
      t.forkDigest = newId.forkDigest) ∧
    (s.updateForkVersion newId).enrForkId = newId ∧
    (s.updateForkVersion newId).gossipsubSubscriptions.length
      = s.gossipsubSubscriptions.length := by
  have hupd := updateForkVersion_eq s newId hsync hdigest hnodup
  refine ⟨?_, ?_, ?_, ?_⟩
  · rw [hupd]
    show ((s.globalsSubscriptions.map
        fun t => { t with forkDigest := newId.forkDigest }).reverse.map
          fun t => (t.kind, t.encoding)).Perm
      (s.globalsSubscriptions.map fun t => (t.kind, t.encoding))
    rw [List.map_reverse]
    have hcomp : ((s.globalsSubscriptions.map
        fun t => { t with forkDigest := newId.forkDigest }).map
          fun t => (t.kind, t.encoding))
        = s.globalsSubscriptions.map fun t => (t.kind, t.encoding) := by
      rw [List.map_map]
      rfl
    rw [hcomp]
    exact List.reverse_perm _
  · rw [hupd]
    intro t ht
    simp only [List.mem_reverse, List.mem_map] at ht
    rcases ht with ⟨x, _, rfl⟩
    rfl
  · rw [hupd]
  · rw [hupd]
    simp [hsync]

/-- Witness for C8 at a concrete state: two topics under digest 5, fork update
to digest 9. -/
theorem c8_witness :
    c8State.gossipsubSubscriptions = c8State.globalsSubscriptions ∧
    (∀ t ∈ c8State.globalsSubscriptions,
      t.forkDigest = c8State.enrForkId.forkDigest) ∧
    c8State.globalsSubscriptions.Nodup ∧
    ((c8State.updateForkVersion ⟨9, 1, 2⟩).globalsSubscriptions.map
        fun t => (t.kind, t.encoding)).Perm
      (c8State.globalsSubscriptions.map fun t => (t.kind, t.encoding)) ∧
    (∀ t ∈ (c8State.updateForkVersion ⟨9, 1, 2⟩).globalsSubscriptions,
      t.forkDigest = (9 : Nat)) ∧
    (c8State.updateForkVersion ⟨9, 1, 2⟩).enrForkId = ⟨9, 1, 2⟩ ∧
    (c8State.updateForkVersion ⟨9, 1, 2⟩).gossipsubSubscriptions.length
      = c8State.gossipsubSubscriptions.length := by
  have h := c8_fork_resubscription c8State ⟨9, 1, 2⟩ (by decide) (by decide) (by decide)
  exact ⟨by decide, by decide, by decide, h.1, h.2.1, h.2.2.1, h.2.2.2⟩
